import Mathlib

/-!
Verification of the ghostflow workflow-automation system against its
natural-language specification.

The definitions below are a shallow embedding of the Rust sources:

  * `src/ghostflow/src/host/pipelines.rs` (pipeline states),
  * `src/ghostflow/src/actions/test/pipelines.rs` (pipeline action matrix),
  * `src/ghostflow-github/src/ghostflow.rs` (check-run message trimming),
  * `src/ghostflow/src/utils/trailer.rs` (trailer extraction),
  * `src/ghostflow-github/client.rs` (retry with exponential backoff),
  * `src/ghostflow/src/actions/merge/settings.rs` (merge settings, commit
    message construction, update merges over the into-branch graph),
  * `src/ghostflow/src/actions/merge/backport.rs` (multi-target merges),
  * `src/ghostflow/src/utils/mr.rs` (commit/merge-request state),
  * `src/ghostflow/src/actions/stage.rs` (staging),
  * `src/ghostflow/src/actions/reformat.rs` (history rewriting).

Pure data manipulation is translated directly.  Subprocess (`git`) and
hosting-service calls are modelled as oracle functions passed in as
parameters, and observable side effects (comments, statuses, pushes,
fetches) are collected in explicit effect traces.  Rust `String` values are
modelled as Lean `String`s except where a claim is about byte lengths, in
which case byte sequences are modelled as `List Char` with one `Char` per
byte.  Hash maps whose iteration order is observed are modelled as
insertion-ordered association lists.
-/

/-! ## Shared string utilities

`rustLines` models Rust's `str::lines`: split at `'\n'`, drop a final empty
piece (terminator semantics), and strip one trailing `'\r'` from each line.
-/

/-- Split a character list at newline characters; the result always has one
more element than the number of newlines. -/
def splitLinesChars : List Char → List (List Char)
  | [] => [[]]
  | c :: rest =>
    if c = '\n' then [] :: splitLinesChars rest
    else
      match splitLinesChars rest with
      | [] => [[c]]
      | l :: ls => (c :: l) :: ls

/-- Strip a single trailing carriage return, as Rust's `str::lines` does. -/
def stripCarriageReturn (l : List Char) : List Char :=
  match l.getLast? with
  | some c => if c = '\r' then l.dropLast else l
  | none => l

/-- Model of Rust's `str::lines`. -/
def rustLines (s : String) : List String :=
  let parts := splitLinesChars s.data
  let parts := if parts.getLast? = some [] then parts.dropLast else parts
  parts.map (fun l => String.mk (stripCarriageReturn l))

/-- Concatenation of a list of strings (the `itertools` `join("")` used by
the sources, expressed with `foldr` so that it splits over `++`). -/
def concatAll : List String → String
  | [] => ""
  | s :: rest => s ++ concatAll rest

/-! ## Pipeline states and the test-pipelines action matrix

From `src/ghostflow/src/host/pipelines.rs` and
`src/ghostflow/src/actions/test/pipelines.rs`.
-/

/-- States for a pipeline as a whole (`PipelineState`). -/
inductive PipelineState where
  | manual
  | inProgress
  | canceled
  | failed
  | success
deriving DecidableEq, Repr, Fintype

/-- Whether the state represents completion or not
(`PipelineState::is_complete`). -/
def PipelineState.is_complete : PipelineState → Bool
  | .manual | .inProgress => false
  | .canceled | .success | .failed => true

/-- Actions on a single job (`JobAction`). -/
inductive JobAction where
  | trigger
  | ignore
deriving DecidableEq, Repr, Fintype

/-- Actions which may be performed on pipelines for a merge request
(`TestPipelinesAction`). -/
inductive TestPipelinesAction where
  | startManual
  | restartUnsuccessful
  | restartFailed
  | restartAll
deriving DecidableEq, Repr, Fintype

/-- The action to take for a job in a given state
(`TestPipelinesAction::action_for`). -/
def TestPipelinesAction.action_for (self : TestPipelinesAction)
    (state : PipelineState) : JobAction :=
  if state = .inProgress then
    .ignore
  else
    match self with
    | .startManual => if state = .manual then .trigger else .ignore
    | .restartUnsuccessful =>
      if state.is_complete ∧ state ≠ .success then .trigger else .ignore
    | .restartFailed => if state = .failed then .trigger else .ignore
    | .restartAll => if state.is_complete then .trigger else .ignore

/-! ## Check-run message trimming

From `src/ghostflow-github/src/ghostflow.rs`.  A Rust `String` is a UTF-8
byte sequence and `String::len` counts bytes; here a string is modelled as
its `List Char` of characters, with the byte length computed from each
character's UTF-8 size.  The byte slice `&text[..n]` returns the prefix of
the characters occupying exactly the first `n` bytes and panics when `n`
does not fall on a character boundary; the panic is modelled as `none`.
-/

/-- The UTF-8 byte length of a character sequence (`str::len`). -/
def utf8Len (l : List Char) : Nat :=
  (l.map (fun c => c.utf8Size)).sum

/-- The byte slice `&s[..n]`: the prefix of the characters holding exactly
the first `n` bytes, or `none` — a panic — when `n` is not a character
boundary or exceeds the byte length. -/
def takeBytes : List Char → Nat → Option (List Char)
  | _, 0 => some []
  | [], Nat.succ _ => none
  | c :: rest, Nat.succ m =>
    if c.utf8Size ≤ m + 1 then
      (takeBytes rest (m + 1 - c.utf8Size)).map (fun t => c :: t)
    else
      none

/-- The GitHub check-run message limit (`GITHUB_CHECK_RUN_MESSAGE_LIMIT`). -/
def GITHUB_CHECK_RUN_MESSAGE_LIMIT : Nat := 65535

/-- The overflow indicator (`GITHUB_OVERFLOW_INDICATOR`); pure ASCII, so 41
characters of one byte each. -/
def GITHUB_OVERFLOW_INDICATOR : List Char :=
  "**Contents exceed GitHub check limits**\n\n".data

/-- Model of `trim_to_check_run_limit`: messages over the limit are replaced
by the indicator followed by the first `65535 - 41` bytes of the original
text; `none` models the panic of the byte slice when that index splits a
multi-byte character. -/
def trim_to_check_run_limit (text : List Char) : Option (List Char) :=
  if utf8Len text > GITHUB_CHECK_RUN_MESSAGE_LIMIT then
    (takeBytes text
        (GITHUB_CHECK_RUN_MESSAGE_LIMIT - utf8Len GITHUB_OVERFLOW_INDICATOR)).map
      (fun pre => GITHUB_OVERFLOW_INDICATOR ++ pre)
  else
    some text

/-! ## Trailer extraction

From `src/ghostflow/src/utils/trailer.rs`.  The regular expression

    ^(?P<token>[[:alpha:]-]+):\s+(?P<value>.+?)\s*$

is modelled by `trailerCapture` below; `[[:alpha:]]` is ASCII-alphabetic and
`\s` is Unicode white space in the Rust `regex` crate.
-/

/-- Characters matched by `[[:alpha:]-]`. -/
def isTokenChar (c : Char) : Bool :=
  c.isAlpha || c = '-'

/-- Characters matched by the `regex` crate's Unicode `\s` class. -/
def isRegexWs (c : Char) : Bool :=
  (0x9 ≤ c.toNat && c.toNat ≤ 0xd) || c.toNat = 0x20 || c.toNat = 0x85 ||
    c.toNat = 0xa0 || c.toNat = 0x1680 ||
    (0x2000 ≤ c.toNat && c.toNat ≤ 0x200a) || c.toNat = 0x2028 ||
    c.toNat = 0x2029 || c.toNat = 0x202f || c.toNat = 0x205f ||
    c.toNat = 0x3000

/-- Strip trailing regex white space from a character list. -/
def dropTrailingWs (l : List Char) : List Char :=
  (l.reverse.dropWhile isRegexWs).reverse

/-- Captures of the trailer regular expression applied to one line, following
its leftmost-first match semantics: the token is the maximal leading run of
`[[:alpha:]-]`, a literal `:` follows, at least one white-space character is
required after the colon, and the value is the rest of the line with
trailing white space stripped (when everything after the colon is white
space, the greedy `\s+` backtracks and the lazy `.+?` captures the final
white-space character as the value, so at least two such characters are
required for a match). -/
def trailerCapture (line : String) : Option (String × String) :=
  let cs := line.data
  let tok := cs.takeWhile isTokenChar
  match tok, cs.dropWhile isTokenChar with
  | [], _ => none
  | _, [] => none
  | _, c :: after =>
    if c = ':' then
      let ws := after.takeWhile isRegexWs
      let r := after.dropWhile isRegexWs
      if ws.isEmpty then none
      else if r.isEmpty then
        if 2 ≤ ws.length then some (String.mk tok, String.mk [ws.getLastD ' '])
        else none
      else some (String.mk tok, String.mk (dropTrailingWs r))
    else none

/-- Collect values of leading `some`s, stopping at the first `none`
(the `while_some` iterator adaptor). -/
def whileSome {α : Type} : List (Option α) → List α
  | [] => []
  | none :: _ => []
  | some a :: rest => a :: whileSome rest

/-- Model of `TrailerRef::extract`: walk the lines from the end, skip empty
lines, capture trailers while the regex matches, and restore source order. -/
def trailerExtract (content : String) : List (String × String) :=
  (whileSome
    (((rustLines content).reverse.dropWhile (fun l => l = "")).map
      trailerCapture)).reverse

/-! ## GitHub retry with exponential backoff

From `src/ghostflow-github/client.rs`.  The fallible query is modelled as a
function from the call index to its result; the model returns the final
result together with the number of calls made and the list of sleep
durations (in seconds), so that the laziness of the original
`iter::repeat(()).take(LIMIT).scan(...).flatten().next()` pipeline is
captured exactly.
-/

/-- The error type of the GitHub client (`GithubError`), with payloads kept
only where a claim needs them. -/
inductive GithubError where
  | urlParse
  | invalidToken
  | invalidActor
  | sendRequest
  | github (response : String)
  | deserialize
  | githubService (status : Nat)
  | jsonResponse
  | graphQL
  | noResponse
  | githubBackoff
deriving DecidableEq, Repr

/-- Which errors are retried (`GithubError::should_backoff`): exactly the
server-class (HTTP 5xx) `GithubService` errors. -/
def GithubError.should_backoff : GithubError → Bool
  | .githubService _ => true
  | _ => false

/-- The maximum number of attempts (`BACKOFF_LIMIT`). -/
def BACKOFF_LIMIT : Nat := 5

/-- The initial sleep duration in seconds (`BACKOFF_START`). -/
def BACKOFF_START : Nat := 1

/-- The factor applied to the sleep duration after each retry
(`BACKOFF_SCALE`). -/
def BACKOFF_SCALE : Nat := 2

/-- The loop of `retry_with_backoff`: `fuel` attempts remain, `calls` calls
have been made, `timeout` is the next sleep duration and `sleeps` the sleeps
performed so far. -/
def retryAux {K : Type} (tryf : Nat → Except GithubError K) :
    Nat → Nat → Nat → List Nat → Except GithubError K × Nat × List Nat
  | 0, calls, _, sleeps => (.error .githubBackoff, calls, sleeps)
  | fuel + 1, calls, timeout, sleeps =>
    match tryf calls with
    | .ok r => (.ok r, calls + 1, sleeps)
    | .error err =>
      if err.should_backoff then
        retryAux tryf fuel (calls + 1) (timeout * BACKOFF_SCALE)
          (sleeps ++ [timeout])
      else
        (.error err, calls + 1, sleeps)

/-- Model of `retry_with_backoff`: result, number of calls, sleeps. -/
def retry_with_backoff {K : Type} (tryf : Nat → Except GithubError K) :
    Except GithubError K × Nat × List Nat :=
  retryAux tryf BACKOFF_LIMIT 0 BACKOFF_START []

/-! ## Merge settings and commit-message construction

From `src/ghostflow/src/actions/merge/settings.rs`.
-/

/-- Information about how to merge into a branch (`IntoBranch`). -/
inductive IntoBranch where
  | mk (name : String) (chain : List IntoBranch)
deriving Repr

/-- The name of the branch (`IntoBranch::name`). -/
def IntoBranch.name : IntoBranch → String
  | .mk n _ => n

/-- The branches to chain into (`IntoBranch::chain_branches`). -/
def IntoBranch.chain_branches : IntoBranch → List IntoBranch
  | .mk _ c => c

mutual

/-- Dependency edges added by `IntoBranch::add_topo_links` for the children
of a node named `n`: one edge per child, followed by the child's own
links. -/
def topoLinksFrom : String → List IntoBranch → List (String × String)
  | _, [] => []
  | n, ib :: rest => (n, ib.name) :: (IntoBranch.topoLinks ib ++ topoLinksFrom n rest)

/-- Dependency edges added by `IntoBranch::add_topo_links`. -/
def IntoBranch.topoLinks : IntoBranch → List (String × String)
  | .mk n chain => topoLinksFrom n chain

end

/-- The supported merge topologies (`MergeTopology`). -/
inductive MergeTopology where
  | noFastForward
  | fastForwardIfPossible
  | fastForwardOnly
deriving DecidableEq, Repr

/-- Settings for a merge action (`MergeSettings`); the generic policy
parameter is handled separately and omitted here. -/
structure MergeSettings where
  branch : String
  merge_branch_as : Option String
  into_branches : List IntoBranch
  quiet : Bool
  log_limit : Option Nat
  elide_branch_name : Bool
  merge_topology : MergeTopology
deriving Repr

/-- The name of the branch to use in merge commits
(`MergeSettings::merge_name`). -/
def MergeSettings.merge_name (s : MergeSettings) : Bool × String :=
  (s.elide_branch_name, s.merge_branch_as.getD s.branch)

/-- The edges `MergeSettings::add_topo_links` adds: from the settings branch
to each of its into branches, recursively. -/
def MergeSettings.topoLinks (s : MergeSettings) : List (String × String) :=
  topoLinksFrom s.branch s.into_branches

/-- A trailer (`Trailer` in `utils/trailer.rs`). -/
structure Trailer where
  token : String
  value : String
deriving DecidableEq, Repr

/-- Rendering of a trailer (its `Display` implementation). -/
def Trailer.render (t : Trailer) : String :=
  t.token ++ ": " ++ t.value

/-- The topic summary section of `Merger::build_commit_message`: the fenced
block delimited by a line reading three backticks followed by `message` and
a line of three backticks, taken from the merge-request description, with a
blank separator line if non-empty. -/
def topicSummaryOf (description : String) : String :=
  let block :=
    (((rustLines description).dropWhile (fun l => l ≠ "```message")).drop 1).takeWhile
      (fun l => l ≠ "```")
  let s := concatAll (block.map (fun l => l ++ "\n"))
  if s = "" then s else s ++ "\n"

/-- The log lines used by `Merger::build_commit_message`.  `fullLog` models
the lines `git log --date-order --format="%h %s" --abbrev-commit` would
print for `<target>..<commit>` without any `--max-count`; a `--max-count=n`
invocation prints the first `n` of them.  With `log_limit = some n` the git
call is made with `--max-count=(n+1)`; afterwards the lines are cleared when
`n = 0` and the entry at index `n` is replaced by `...` when more than `n`
entries were produced. -/
def logLinesOf (log_limit : Option Nat) (fullLog : List String) : List String :=
  match log_limit with
  | none => fullLog
  | some limit =>
    let raw := fullLog.take (limit + 1)
    if limit = 0 then []
    else if raw.length > limit then raw.set limit "..."
    else raw

/-- The log summary section of `Merger::build_commit_message`: the log
lines, one per line, with a blank separator line if non-empty. -/
def logSummaryOf (log_limit : Option Nat) (fullLog : List String) : String :=
  let s := concatAll ((logLinesOf log_limit fullLog).map (fun l => l ++ "\n"))
  if s = "" then s else s ++ "\n"

/-- The trailer section of `Merger::build_commit_message`: the approved
trailers followed by a final `Merge-request` trailer, one per line. -/
def trailerSummaryOf (trailers : List Trailer) (reference : String) : String :=
  concatAll
    ((trailers ++ [Trailer.mk "Merge-request" reference]).map
      (fun t => t.render ++ "\n"))

/-- Model of `Merger::build_commit_message`.  `description` is the
merge-request description, `fullLog` the full `git log` line list for
`<target>..<commit>` and `reference` the merge-request reference. -/
def build_commit_message (settings : MergeSettings) (topic_name : String)
    (description : String) (fullLog : List String) (reference : String)
    (trailers : List Trailer) : String :=
  let mn := settings.merge_name
  let into_branch := if mn.1 then "" else " into " ++ mn.2
  "Merge topic \x27" ++ topic_name ++ "\x27" ++ into_branch ++ "\n\n" ++
    topicSummaryOf description ++ logSummaryOf settings.log_limit fullLog ++
    trailerSummaryOf trailers reference

/-! ## Merge-request preparation and multi-target merges

From `Merger::prep_mr` and `Merger::merge_mr` in
`src/ghostflow/src/actions/merge/settings.rs` and from
`MergeMany::merge_mr_named` in
`src/ghostflow/src/actions/merge/backport.rs`, together with
`commit_state` from `src/ghostflow/src/utils/mr.rs`.

Observable side effects are collected as `MergeEffect` traces.  The work
performed after the modelled steps (creating the per-target merge commits,
the update merges and the final push) is abstracted: `merge_mr` takes it as
an explicit continuation and `merge_mr_named` takes a `createMerge` oracle
for `Merger::create_merge` and a continuation for the update-merge/push
phase.
-/

/-- The result of the merge action (`MergeActionResult`). -/
inductive MergeActionResult where
  | success
  | pushFailed
  | failed
deriving DecidableEq, Repr

/-- Errors surfaced by the merge action and its helpers, with payloads kept
only where a claim needs them (`MergeError` / `InternalMergeError` and the
`utils::mr` error type). -/
inductive MergeErrorModel where
  | hostingService
  | duplicateTargetBranch (branch : String)
  | unrelatedCommit (commit : String)
  | mergedCommit (commit : String)
  | circularIntoBranches
  | internalReferenceTracking (branch : String)
  | internalIntoBranchSorting (source target : String)
  | internalLeftoverBranches (branches : List String)
  | utilsParseCommit (commit : String)
  | utilsListCommits
deriving DecidableEq, Repr

/-- Observable side effects of the merge action. -/
inductive MergeEffect where
  | postComment (content : String)
  | fetchMr
  | createMergeCommit (branch : String)
  | pushRefs (refs : List (String × String))
deriving DecidableEq, Repr

/-- Outcome of a preparation or merge step: either proceed with the action
or halt early with a result (the `Either<T, MergeActionResult>` alias
`StepResult`). -/
inductive PrepStep where
  | proceed
  | halt (res : MergeActionResult)
deriving DecidableEq, Repr

/-- The work-in-progress comment posted by `Merger::prep_mr`. -/
def wipComment : String :=
  "This merge request is marked as a Work in Progress and may not be " ++
    "merged. Please remove the Work in Progress state first."

/-- The merge-request fields the modelled code paths read (`MergeRequest`). -/
structure MergeRequestModel where
  id : Nat
  work_in_progress : Bool
  commit_id : String
  source_branch : String
  reference : String
deriving DecidableEq, Repr

/-- Model of `Merger::prep_mr`: a work-in-progress merge request receives a
comment and halts with `Failed` before anything is fetched; otherwise the
merge request is fetched into the local context (`fetchOk` says whether that
service call succeeds). -/
def prep_mr (mr : MergeRequestModel) (fetchOk : Bool) :
    Except MergeErrorModel PrepStep × List MergeEffect :=
  if mr.work_in_progress then
    (.ok (.halt .failed), [.postComment wipComment])
  else if fetchOk then
    (.ok .proceed, [.fetchMr])
  else
    (.error .hostingService, [.fetchMr])

/-- Model of `Merger::merge_mr` up to the end of `prep_mr`: `rest` is the
continuation covering everything after preparation (creating the merge,
update merges and pushing), given as its effects and result. -/
def merge_mr (mr : MergeRequestModel) (fetchOk : Bool)
    (rest : List MergeEffect × Except MergeErrorModel MergeActionResult) :
    Except MergeErrorModel MergeActionResult × List MergeEffect :=
  match prep_mr mr fetchOk with
  | (.ok (.halt res), eff) => (.ok res, eff)
  | (.ok .proceed, eff) => (rest.2, eff ++ rest.1)
  | (.error e, eff) => (.error e, eff)

/-- The status of a commit given a merge request and a target branch
(`CommitMergeRequestState`). -/
inductive CommitMergeRequestState where
  | onMergeRequest
  | onTarget
  | unrelated
deriving DecidableEq, Repr

/-- Model of `utils::mr::commit_state`.  `revParseOut` is the stdout of
`git rev-parse <commit>` (`none` when it fails) and `revListOut` the stdout
of `git rev-list ^<base> <mr.commit.id>` (`none` when it fails).  An empty
rev-list means the merge-request head is already contained in the target, so
the state is `OnTarget` no matter which commit was asked about; otherwise
the commit is on the merge request exactly when its resolved id is one of
the listed commits. -/
def commit_state (commit : String) (revParseOut : Option String)
    (revListOut : Option String) :
    Except MergeErrorModel CommitMergeRequestState :=
  match revParseOut with
  | none => .error (.utilsParseCommit commit)
  | some commit_id =>
    match revListOut with
    | none => .error .utilsListCommits
    | some commits =>
      if commits = "" then .ok .onTarget
      else if (rustLines commits).any (fun l => l = commit_id.trim) then
        .ok .onMergeRequest
      else .ok .unrelated

/-- Outcome of `Merger::create_merge` for one target, used as an oracle by
the backport loop: a merge commit, an early halt with a result, or an
error. -/
inductive CreateMergeOutcome where
  | merged (commit : String)
  | halted (res : MergeActionResult)
  | failedWith (e : MergeErrorModel)
deriving DecidableEq, Repr

/-- The per-backport loop of `MergeMany::merge_mr_named`: check for
duplicate target branches, determine the commit to merge (the override or
the merge-request head), classify it with `commit_state`, and on
`OnMergeRequest` run `create_merge`.  `revParse commit` and `revList branch`
are the git oracles for `commit_state`; `seen` accumulates the target
branches already requested. -/
def backportLoop (revParse : String → Option String)
    (revList : String → Option String)
    (createMerge : String → String → CreateMergeOutcome)
    (mrCommit : String) :
    List (String × Option String) → List String →
      Except MergeErrorModel (Option MergeActionResult)
  | [], _ => .ok none
  | (branch, override) :: rest, seen =>
    if branch ∈ seen then
      .error (.duplicateTargetBranch branch)
    else
      let commit := override.getD mrCommit
      match commit_state commit (revParse commit) (revList branch) with
      | .error e => .error e
      | .ok .onTarget => .error (.mergedCommit commit)
      | .ok .unrelated => .error (.unrelatedCommit commit)
      | .ok .onMergeRequest =>
        match createMerge branch commit with
        | .failedWith e => .error e
        | .halted res => .ok (some res)
        | .merged _ =>
          backportLoop revParse revList createMerge mrCommit rest
            (branch :: seen)

/-- Model of `MergeMany::merge_mr_named` up to the end of the backport loop:
preparation, then the per-target checks and merges; `updateAndPush` is the
continuation covering `perform_update_merges` and `push_refs` when every
target merged. -/
def merge_mr_named (mr : MergeRequestModel) (fetchOk : Bool)
    (revParse : String → Option String) (revList : String → Option String)
    (createMerge : String → String → CreateMergeOutcome)
    (backports : List (String × Option String))
    (updateAndPush : Except MergeErrorModel MergeActionResult) :
    Except MergeErrorModel MergeActionResult × List MergeEffect :=
  match prep_mr mr fetchOk with
  | (.ok (.halt res), eff) => (.ok res, eff)
  | (.error e, eff) => (.error e, eff)
  | (.ok .proceed, eff) =>
    match backportLoop revParse revList createMerge mr.commit_id backports [] with
    | .error e => (.error e, eff)
    | .ok (some res) => (.ok res, eff)
    | .ok none => (updateAndPush, eff)

/-! ## Staging a merge request

From `Stage::stage_merge_request_impl` in
`src/ghostflow/src/actions/stage.rs`.  The `git-topic-stage` stager state is
modelled by `StagerModel`; the path taken when the merge request is not
already staged at the same commit (building the candidate topic, calling
`Stager::stage` and pushing the head ref) is abstracted as the continuation
`rest`.
-/

/-- The staged-topic fields the modelled code path reads. -/
structure TopicModel where
  commit : String
  id : Nat
deriving DecidableEq, Repr

/-- The stager state: base, head and the ordered list of staged topics. -/
structure StagerModel where
  base : String
  head : String
  topics : List TopicModel
deriving DecidableEq, Repr

/-- Observable effects of the stage action. -/
inductive StageEffect where
  | fetchMr
  | comment (content : String)
  | commitStatus (desc : String)
  | stagerStage
  | headRefPush
deriving DecidableEq, Repr

/-- Errors of the stage action, payloads elided. -/
inductive StageErrorModel where
  | hostingService
  | stagerFailure
  | gitFailure
deriving DecidableEq, Repr

/-- Lookup of a staged topic by merge-request id
(`Stager::find_topic_by_id`). -/
def find_topic_by_id (st : StagerModel) (id : Nat) : Option TopicModel :=
  st.topics.find? (fun t => t.id == id)

/-- The informational comment posted when a topic is already staged. -/
def alreadyStagedComment : String :=
  "This topic has already been staged; ignoring the request to stage."

/-- Model of `Stage::stage_merge_request_impl`: fetch the merge request,
and if its id is already staged at the same commit, post an informational
comment (suppressed when `quiet`) and return without touching the stager;
otherwise run the continuation `rest` (candidate construction,
`Stager::stage`, result reporting and the head-ref push). -/
def stage_merge_request (st : StagerModel) (quiet : Bool)
    (mr : MergeRequestModel) (fetchOk : Bool)
    (rest : StagerModel →
      Except StageErrorModel Unit × StagerModel × List StageEffect) :
    Except StageErrorModel Unit × StagerModel × List StageEffect :=
  if fetchOk then
    match find_topic_by_id st mr.id with
    | some staged =>
      if staged.commit = mr.commit_id then
        (.ok (), st,
          .fetchMr :: (if quiet then [] else [.comment alreadyStagedComment]))
      else
        let (r, st2, eff) := rest st
        (r, st2, .fetchMr :: eff)
    | none =>
      let (r, st2, eff) := rest st
      (r, st2, .fetchMr :: eff)
  else
    (.error .hostingService, st, [.fetchMr])

/-! ## Reformatting a merge request

From `Reformat::reformat_mr` in `src/ghostflow/src/actions/reformat.rs`.
The git object database is abstracted by a `ReformatCtx` of oracles:
`parents c` lists the parents of commit `c`, `diffEmpty c` says whether the
diff of commit `c` against its parents is empty (`Commit::new(..).diffs
.is_empty()`), and `newCommitOf c ps` is the id of the commit produced by
reformatting `c` and committing the result with parent list `ps`
(`construct_work_commit` + `reformat_paths` + `commit_tree`).
-/

/-- `rewrite_map.get(k).unwrap_or(k)` over an association-list model of the
rewrite map. -/
def rewriteLookup (m : List (String × String)) (k : String) : String :=
  match m.find? (fun e => e.1 == k) with
  | some e => e.2
  | none => k

/-- The oracles describing the object database during a reformat. -/
structure ReformatCtx where
  parents : String → List String
  diffEmpty : String → Bool
  newCommitOf : String → List String → String

/-- One iteration of the `reformat_mr` loop over the rev-list.  The state is
the rewrite map together with the list of elided (empty) commits.  The
commit is dropped exactly when it has a single parent, its original diff is
non-empty and the reformatted commit's diff against the rewritten parent is
empty; merge commits and root commits are always kept. -/
def reformatStep (ctx : ReformatCtx)
    (acc : List (String × String) × List String) (c : String) :
    List (String × String) × List String :=
  let rmap := acc.1
  let dropped := acc.2
  let workParents := (ctx.parents c).map (rewriteLookup rmap)
  let newCommit := ctx.newCommitOf c workParents
  match workParents with
  | [parent] =>
    if ctx.diffEmpty c = false ∧ ctx.diffEmpty newCommit = true then
      ((c, rewriteLookup rmap parent) :: rmap, dropped ++ [c])
    else
      ((c, newCommit) :: rmap, dropped)
  | _ => ((c, newCommit) :: rmap, dropped)

/-- Model of the rewriting loop of `Reformat::reformat_mr` over the
`rev-list --reverse --topo-order ^base mr.commit.id` commits: the final
rewrite map, the list of dropped commits, and the new head (the rewrite of
the merge-request head, or the head itself if untouched). -/
def reformat_mr (ctx : ReformatCtx) (commits : List String)
    (mrCommit : String) :
    (List (String × String) × List String) × String :=
  let st := commits.foldl (reformatStep ctx) ([], [])
  (st, rewriteLookup st.1 mrCommit)

/-! ## Update merges over the into-branch graph

From `Merger::perform_update_merges` in
`src/ghostflow/src/actions/merge/settings.rs`.

The `topological_sort` crate keeps every branch name mentioned by
`add_dependency` and repeatedly pops an element none of whose predecessors
remain; its choice among simultaneously free elements is unspecified (hash
iteration), so an execution is modelled against an explicit pop `schedule`,
and `ValidSchedule` says that a schedule is one the crate could produce:
every popped element is free at its turn and no free element remains at the
end.  The `push_refs` and `from_branches` hash maps are modelled as
association lists (new keys append at the end; updates keep their
position); during the loop the maps are only read through key lookups, so
the list order is irrelevant there, and the one order-sensitive step — the
final `push_refs.into_iter()`, whose `std::collections::HashMap` order is
arbitrary — is modelled by an explicit iteration-order parameter ranging
over the permutations of the stored keys.  The creation of an
update-merge commit (a `-s ours`
style commit re-using the target tree) always succeeds in `git` for
well-formed inputs and is abstracted by the `mkMerge` oracle mapping the
target commit, source commit and commit message to the new commit id.
-/

mutual

/-- All `(name, chain)` pairs of the nodes of an into-branch tree. -/
def pairsOf : IntoBranch → List (String × List IntoBranch)
  | .mk n ch => (n, ch) :: pairsOfList ch

/-- All `(name, chain)` pairs of the nodes of an into-branch forest. -/
def pairsOfList : List IntoBranch → List (String × List IntoBranch)
  | [] => []
  | ib :: rest => pairsOf ib ++ pairsOfList rest

end

/-- The merged targets handed to `perform_update_merges`: for each, the
branch, its freshly created merge commit and its into branches (this is the
`refs` iterator built by `merge_mr` and by `merge_mr_named`). -/
def MergeRoots : Type := List (String × String × List IntoBranch)

/-- The dependency edges the callers add to the sorter: for each merged
target, edges from its branch into its into-branch forest
(`MergeSettings::add_topo_links` per target). -/
def rootsEdges (roots : MergeRoots) : List (String × String) :=
  roots.flatMap (fun r => topoLinksFrom r.1 r.2.2)

/-- Every node of the configuration with its chain: for each merged target,
the target with its into list followed by every node of its into forest. -/
def nodePairs (roots : MergeRoots) : List (String × List IntoBranch) :=
  roots.flatMap (fun r => (r.1, r.2.2) :: pairsOfList r.2.2)

/-- All branch names of the configuration (targets and into branches). -/
def allBranches (roots : MergeRoots) : List String :=
  (nodePairs roots).map (fun e => e.1)

/-- The configuration has no repeated branch name; such a configuration is
a forest and in particular acyclic. -/
def NoRepeatedNodes (roots : MergeRoots) : Prop :=
  (allBranches roots).Nodup

/-- The elements the topological sorter holds: every endpoint of an added
dependency edge, first occurrences first. -/
def sorterNodes (edges : List (String × String)) : List String :=
  (edges.flatMap (fun e => [e.1, e.2])).dedup

/-- Whether `b` can be popped: it has not been popped yet and every
predecessor edge comes from an already popped element. -/
def isFree (edges : List (String × String)) (remaining : List String)
    (b : String) : Bool :=
  remaining.contains b &&
    edges.all (fun e => !(e.2 == b) || !(remaining.contains e.1))

/-- No free element remains (the `while let Some(..) = sorter.pop()` loop
has ended). -/
def noFreeLeft (edges : List (String × String)) (remaining : List String) :
    Bool :=
  remaining.all (fun b => !(isFree edges remaining b))

/-- `validFrom edges remaining sched`: starting from `remaining`, the
schedule pops only free elements and pops until no free element is left. -/
def validFrom (edges : List (String × String)) :
    List String → List String → Bool
  | remaining, [] => noFreeLeft edges remaining
  | remaining, b :: rest =>
    isFree edges remaining b && validFrom edges (remaining.erase b) rest

/-- A complete pop order the topological sorter could produce. -/
def ValidSchedule (edges : List (String × String)) (schedule : List String) :
    Bool :=
  validFrom edges (sorterNodes edges) schedule

/-- The state of the `perform_update_merges` loop: the elements still in
the sorter, the `from_branches` map and the `push_refs` map. -/
structure UpdateMergeState where
  remaining : List String
  from_branches : List (String × List String)
  push_refs : List (String × String × List IntoBranch)

/-- `push_refs.get(k)` on the association-list model. -/
def alistGetCommit (m : List (String × String × List IntoBranch))
    (k : String) : Option (String × List IntoBranch) :=
  (m.find? (fun e => e.1 == k)).map (fun e => e.2)

/-- In-place update of the commit stored for a present key (the
`push_ref.0 = new_commit` assignment). -/
def alistSetCommit (m : List (String × String × List IntoBranch))
    (k : String) (c : String) : List (String × String × List IntoBranch) :=
  m.map (fun e => if e.1 == k then (e.1, c, e.2.2) else e)

/-- `push_refs.entry(k).or_insert(v)`: keep an existing entry, append a new
one. -/
def alistSeed (m : List (String × String × List IntoBranch)) (k : String)
    (v : String × List IntoBranch) : List (String × String × List IntoBranch) :=
  if (m.find? (fun e => e.1 == k)).isSome then m else m ++ [(k, v)]

/-- `from_branches.get(k)`. -/
def fbGet (m : List (String × List String)) (k : String) :
    Option (List String) :=
  (m.find? (fun e => e.1 == k)).map (fun e => e.2)

/-- Removal of a `from_branches` entry (`HashMap::remove`). -/
def fbErase (m : List (String × List String)) (k : String) :
    List (String × List String) :=
  m.filter (fun e => !(e.1 == k))

/-- `from_branches.entry(k).or_insert_with(Vec::new).push(v)`. -/
def fbPush (m : List (String × List String)) (k : String) (v : String) :
    List (String × List String) :=
  if (m.find? (fun e => e.1 == k)).isSome then
    m.map (fun e => if e.1 == k then (e.1, e.2 ++ [v]) else e)
  else
    m ++ [(k, [v])]

/-- The merge-as name for a branch
(`renamer.get(b).unwrap_or(&(false, b))`). -/
def mergeNameFor (renamer : List (String × Bool × String)) (b : String) :
    Bool × String :=
  ((renamer.find? (fun e => e.1 == b)).map (fun e => e.2)).getD (false, b)

/-- The update-merge commit message
(`Merge branch '<source>'[ into <target>]`). -/
def updateMergeMessage (renamer : List (String × Bool × String))
    (source target : String) : String :=
  let mn := mergeNameFor renamer target
  let into := if mn.1 then "" else " into " ++ mn.2
  let srcName :=
    ((renamer.find? (fun e => e.1 == source)).map (fun e => e.2.2)).getD source
  "Merge branch \x27" ++ srcName ++ "\x27" ++ into

/-- The fold performing one update merge per queued source branch; the
commit of a source branch is looked up in `push_refs` as it stood when the
target was popped. -/
def foldSources (mkMerge : String → String → String → String)
    (renamer : List (String × Bool × String))
    (pushRefs : List (String × String × List IntoBranch)) (target : String) :
    List String → String → Except MergeErrorModel String
  | [], tc => .ok tc
  | src :: rest, tc =>
    match alistGetCommit pushRefs src with
    | none => .error (.internalIntoBranchSorting src target)
    | some sc =>
      foldSources mkMerge renamer pushRefs target rest
        (mkMerge tc sc.1 (updateMergeMessage renamer src target))

/-- Queue the popped branch as a pending source for each of its into
branches and seed their `push_refs` entries (the trailing `for_each` of the
loop body). -/
def seedIntos (target : String) (intos : List IntoBranch)
    (st : UpdateMergeState) : UpdateMergeState :=
  intos.foldl
    (fun acc ib =>
      { acc with
        from_branches := fbPush acc.from_branches ib.name target,
        push_refs := alistSeed acc.push_refs ib.name (ib.name, ib.chain_branches) })
    st

/-- The body of the `while let Some(target_branch) = sorter.pop()` loop for
one popped branch `b`. -/
def popStep (mkMerge : String → String → String → String)
    (renamer : List (String × Bool × String)) (st : UpdateMergeState)
    (b : String) : Except MergeErrorModel UpdateMergeState :=
  match alistGetCommit st.push_refs b with
  | none => .error (.internalReferenceTracking b)
  | some target =>
    let st1 : UpdateMergeState := { st with remaining := st.remaining.erase b }
    match fbGet st1.from_branches b with
    | none => .ok (seedIntos b target.2 st1)
    | some sources =>
      match foldSources mkMerge renamer st1.push_refs b sources target.1 with
      | .error e => .error e
      | .ok newCommit =>
        .ok (seedIntos b target.2
          { st1 with
            from_branches := fbErase st1.from_branches b,
            push_refs := alistSetCommit st1.push_refs b newCommit })

/-- Run the loop along a pop schedule; schedule entries that are not free
are ignored (a valid schedule never contains one at its turn). -/
def runSchedule (edges : List (String × String))
    (mkMerge : String → String → String → String)
    (renamer : List (String × Bool × String)) :
    List String → UpdateMergeState → Except MergeErrorModel UpdateMergeState
  | [], st => .ok st
  | b :: rest, st =>
    if isFree edges st.remaining b then
      match popStep mkMerge renamer st b with
      | .error e => .error e
      | .ok st2 => runSchedule edges mkMerge renamer rest st2
    else
      runSchedule edges mkMerge renamer rest st

/-- Model of `Merger::perform_update_merges` for the pop order `schedule`
and the final map iteration order `iterOrder`: run the loop from the
initial refs, then report a cycle if elements remain in the sorter,
leftover branches if pending sources remain, and otherwise the
`(commit, branch)` list handed to the atomic push.  The final
`push_refs.into_iter()` walks a `std::collections::HashMap` in an
arbitrary, run-dependent order; that order is the explicit `iterOrder`
parameter, which yields one entry per key it names (an order the map can
produce is any permutation of the stored keys). -/
def perform_update_merges (mkMerge : String → String → String → String)
    (renamer : List (String × Bool × String)) (refs : MergeRoots)
    (edges : List (String × String)) (schedule : List String)
    (iterOrder : List String) :
    Except MergeErrorModel (List (String × String)) :=
  match runSchedule edges mkMerge renamer schedule
      { remaining := sorterNodes edges, from_branches := [], push_refs := refs } with
  | .error e => .error e
  | .ok st =>
    if st.remaining.isEmpty then
      if st.from_branches.isEmpty then
        .ok (iterOrder.filterMap (fun b =>
          (alistGetCommit st.push_refs b).map (fun v => (v.1, b))))
      else
        .error (.internalLeftoverBranches (st.from_branches.map (fun e => e.1)))
    else
      .error .circularIntoBranches

/-- The refs reaching the single atomic push in `merge_mr` /
`merge_mr_named`: the `?` operator propagates any error of
`perform_update_merges` before `push_refs` runs, so an error pushes
nothing. -/
def refsHandedToPush
    (r : Except MergeErrorModel (List (String × String))) :
    List (String × String) :=
  match r with
  | .ok l => l
  | .error _ => []

/-- `a` occurs before `b` in `xs`. -/
def ListPrecedes {α : Type} (xs : List α) (a b : α) : Prop :=
  List.Sublist [a, b] xs

/-- A path along dependency edges. -/
def EdgePath (edges : List (String × String)) (x : String)
    (l : List String) : Prop :=
  List.Chain (fun a b => (a, b) ∈ edges) x l

/-- The dependency graph contains a cycle. -/
def HasEdgeCycle (edges : List (String × String)) : Prop :=
  ∃ x l, EdgePath edges x (l ++ [x])

mutual

/-- The names of all nodes of an into-branch tree. -/
def namesOf : IntoBranch → List String
  | .mk n ch => n :: namesOfList ch

/-- The names of all nodes of an into-branch forest. -/
def namesOfList : List IntoBranch → List String
  | [] => []
  | ib :: rest => namesOf ib ++ namesOfList rest

end

instance (roots : MergeRoots) : Decidable (NoRepeatedNodes roots) :=
  List.nodupDecidable _

instance (edges : List (String × String)) (x : String) (l : List String) :
    Decidable (EdgePath edges x l) :=
  List.decidableChain _ _

/-! ## Concrete configurations used by the witnesses and counterexamples -/

/-- A duplicate-free configuration: `main` merges into `release`. -/
def witnessRoots : MergeRoots :=
  [("main", "C0", [IntoBranch.mk "release" []])]

/-- A merge oracle recording both parents in the produced commit id. -/
def witnessMkMerge : String → String → String → String :=
  fun a b _ => a ++ "+" ++ b

/-- A configuration whose graph contains the cycle `R -> S -> R` and which
also repeats the node `P`: the second occurrence of `P` carries the chain
`[X]`, but the `push_refs` entry for `P` is seeded from the first
occurrence (whose chain is empty), so `X` is never seeded and popping it
fails with the internal reference-tracking error instead of
`CircularIntoBranches`. -/
def cycleRoots : MergeRoots :=
  [("A", "c0",
    [IntoBranch.mk "P" [],
     IntoBranch.mk "Q" [IntoBranch.mk "P" [IntoBranch.mk "X" []]],
     IntoBranch.mk "R" [IntoBranch.mk "S" [IntoBranch.mk "R" []]]])]

/-- The merge settings used in the commit-message counterexample:
`merge_branch_as` equals the branch and `elide_branch_name` is not set. -/
def cexSettings : MergeSettings :=
  { branch := "main"
    merge_branch_as := some "main"
    into_branches := []
    quiet := false
    log_limit := none
    elide_branch_name := false
    merge_topology := .noFastForward }

/-- The elision condition of one `reformat_mr` step: the commit has exactly
one (rewritten) parent, a non-empty original diff, and an empty reformatted
diff. -/
def dropCond (ctx : ReformatCtx) (rmap : List (String × String))
    (c : String) : Prop :=
  ∃ p, (ctx.parents c).map (rewriteLookup rmap) = [p] ∧
    ctx.diffEmpty c = false ∧
    ctx.diffEmpty (ctx.newCommitOf c ((ctx.parents c).map (rewriteLookup rmap))) = true

/-- All child-name occurrences of the configuration: for each node, the
names of its top-level into branches. -/
def childOccs (roots : MergeRoots) : List String :=
  (nodePairs roots).flatMap (fun pr => pr.2.map IntoBranch.name)

/-- The branch names keyed by `push_refs`. -/
def pushKeys (st : UpdateMergeState) : List String :=
  st.push_refs.map (fun e => e.1)

/-- The run invariant of the `perform_update_merges` loop. -/
def MergeInv (roots : MergeRoots) (st : UpdateMergeState) : Prop :=
  (∀ b, b ∈ st.remaining → b ∈ sorterNodes (rootsEdges roots)) ∧
  (∀ b, b ∈ roots.map (fun r => r.1) → b ∈ pushKeys st) ∧
  (pushKeys st).Nodup ∧
  (∀ e ∈ st.push_refs, (e.1, e.2.2) ∈ nodePairs roots) ∧
  (∀ p c, (p, c) ∈ rootsEdges roots → c ∈ pushKeys st →
    [p, c].Sublist (pushKeys st)) ∧
  (∀ p c, (p, c) ∈ rootsEdges roots → c ∉ st.remaining → p ∉ st.remaining) ∧
  (∀ p c, (p, c) ∈ rootsEdges roots → p ∉ st.remaining → c ∈ pushKeys st) ∧
  (∀ b, b ∈ sorterNodes (rootsEdges roots) → b ∉ st.remaining →
    b ∈ pushKeys st) ∧
  (∀ c v, fbGet st.from_branches c = some v →
    c ∈ st.remaining ∧ ∀ x ∈ v, x ∈ pushKeys st)

/-! # Theorems -/

/-- C8: `PipelineState.is_complete` holds exactly on `Canceled`, `Failed`
and `Success`; `action_for` returns `Trigger` exactly for
(`StartManual`, `Manual`), (`RestartUnsuccessful`, `Canceled`/`Failed`),
(`RestartFailed`, `Failed`) and (`RestartAll`,
`Canceled`/`Failed`/`Success`); every other combination, including every
action on `InProgress`, yields `Ignore`. -/
theorem pipeline_action_matrix :
    (∀ s : PipelineState,
        s.is_complete = true ↔ s = .canceled ∨ s = .failed ∨ s = .success) ∧
    (∀ (a : TestPipelinesAction) (s : PipelineState),
        a.action_for s = .trigger ↔
          (a = .startManual ∧ s = .manual) ∨
          (a = .restartUnsuccessful ∧ (s = .canceled ∨ s = .failed)) ∨
          (a = .restartFailed ∧ s = .failed) ∨
          (a = .restartAll ∧ (s = .canceled ∨ s = .failed ∨ s = .success))) ∧
    (∀ (a : TestPipelinesAction) (s : PipelineState),
        a.action_for s ≠ .trigger → a.action_for s = .ignore) := by
  refine ⟨?_, ?_, ?_⟩ <;> decide

/-- Byte lengths add across concatenation. -/
theorem utf8Len_append (l1 l2 : List Char) :
    utf8Len (l1 ++ l2) = utf8Len l1 + utf8Len l2 := by
  rw [utf8Len, utf8Len, utf8Len, List.map_append]
  exact Nat.sum_append

/-- The byte length of a repeated character. -/
theorem utf8Len_replicate (k : Nat) (c : Char) :
    utf8Len (List.replicate k c) = k * c.utf8Size := by
  induction k with
  | zero => simp [utf8Len]
  | succ k ih =>
    rw [List.replicate_succ,
      show utf8Len (c :: List.replicate k c) =
        c.utf8Size + utf8Len (List.replicate k c) from rfl, ih]
    ring

/-- A successful byte slice takes exactly the requested bytes, and is a
prefix of the text. -/
theorem takeBytes_spec :
    ∀ (l : List Char) (n : Nat) (t : List Char), takeBytes l n = some t →
      utf8Len t = n ∧ l.take t.length = t := by
  intro l
  induction l with
  | nil =>
    intro n t h
    match n, h with
    | 0, h =>
      injection h with h
      rw [← h]
      exact ⟨rfl, rfl⟩
    | Nat.succ m, h => cases h
  | cons c rest ih =>
    intro n t h
    match n, h with
    | 0, h =>
      injection h with h
      rw [← h]
      exact ⟨rfl, rfl⟩
    | Nat.succ m, h =>
      rw [show takeBytes (c :: rest) (m + 1) =
        if c.utf8Size ≤ m + 1 then
          (takeBytes rest (m + 1 - c.utf8Size)).map (fun t => c :: t)
        else none from rfl] at h
      by_cases hle : c.utf8Size ≤ m + 1
      · rw [if_pos hle] at h
        rcases hrec : takeBytes rest (m + 1 - c.utf8Size) with _ | t0
        · rw [hrec] at h
          cases h
        · rw [hrec] at h
          injection h with h
          obtain ⟨hl1, hl2⟩ := ih (m + 1 - c.utf8Size) t0 hrec
          rw [← h]
          constructor
          · show c.utf8Size + utf8Len t0 = m + 1
            have hpos := Char.utf8Size_pos c
            rw [hl1]
            omega
          · show c :: rest.take t0.length = c :: t0
            rw [hl2]
      · rw [if_neg hle] at h
        cases h

/-- The empty byte slice always succeeds. -/
theorem takeBytes_zero (l : List Char) : takeBytes l 0 = some [] := by
  rcases l with _ | ⟨c, rest⟩ <;> rfl

/-- Slicing right through a run of one-byte characters. -/
theorem takeBytes_replicate_append (rest : List Char) (m : Nat) :
    ∀ k : Nat, takeBytes (List.replicate k 'a' ++ rest) (k + m) =
      (takeBytes rest m).map (fun t => List.replicate k 'a' ++ t) := by
  intro k
  induction k with
  | zero =>
    rw [show (0 : Nat) + m = m from by omega]
    show takeBytes rest m = _
    rcases takeBytes rest m with _ | t
    · rfl
    · rfl
  | succ k ih =>
    rw [show (k + 1) + m = (k + m) + 1 from by omega, List.replicate_succ,
      List.cons_append]
    have hsz : Char.utf8Size 'a' = 1 := by decide
    rw [show takeBytes ('a' :: (List.replicate k 'a' ++ rest)) ((k + m) + 1) =
      if Char.utf8Size 'a' ≤ (k + m) + 1 then
        (takeBytes (List.replicate k 'a' ++ rest)
          ((k + m) + 1 - Char.utf8Size 'a')).map (fun t => 'a' :: t)
      else none from rfl]
    rw [if_pos (by omega), show (k + m) + 1 - Char.utf8Size 'a' = k + m from by omega]
    rw [ih, Option.map_map]
    rcases takeBytes rest m with _ | t
    · rfl
    · rfl

/-- Slicing a pure-ASCII message at any in-range index succeeds. -/
theorem takeBytes_replicate (K n : Nat) (h : n ≤ K) :
    takeBytes (List.replicate K 'a') n = some (List.replicate n 'a') := by
  have hsplit : List.replicate K 'a' =
      List.replicate n 'a' ++ List.replicate (K - n) 'a' := by
    rw [← List.replicate_add]
    congr 1
    omega
  rw [hsplit]
  have h2 := takeBytes_replicate_append (List.replicate (K - n) 'a') 0 n
  rw [takeBytes_zero, show n + 0 = n from rfl] at h2
  rw [h2]
  show some (List.replicate n 'a' ++ []) = _
  rw [List.append_nil]

/-- C5 (amended): a message of at most 65535 bytes passes
`trim_to_check_run_limit` unchanged; a longer one is replaced by the
overflow indicator followed by the first 65494 bytes of the text — a
prefix of it — for a total of exactly 65535 bytes, provided byte 65494
falls on a character boundary; otherwise the byte slice panics. -/
theorem trim_to_check_run_limit_spec (s : List Char) :
    (utf8Len s ≤ GITHUB_CHECK_RUN_MESSAGE_LIMIT →
      trim_to_check_run_limit s = some s) ∧
    (GITHUB_CHECK_RUN_MESSAGE_LIMIT < utf8Len s →
      trim_to_check_run_limit s =
        (takeBytes s (GITHUB_CHECK_RUN_MESSAGE_LIMIT -
          utf8Len GITHUB_OVERFLOW_INDICATOR)).map
          (fun pre => GITHUB_OVERFLOW_INDICATOR ++ pre) ∧
      ∀ out, trim_to_check_run_limit s = some out →
        ∃ pre, s.take pre.length = pre ∧
          out = GITHUB_OVERFLOW_INDICATOR ++ pre ∧
          utf8Len out = GITHUB_CHECK_RUN_MESSAGE_LIMIT) := by
  constructor
  · intro h
    unfold trim_to_check_run_limit
    rw [if_neg (by omega)]
  · intro h
    have he : trim_to_check_run_limit s =
        (takeBytes s (GITHUB_CHECK_RUN_MESSAGE_LIMIT -
          utf8Len GITHUB_OVERFLOW_INDICATOR)).map
          (fun pre => GITHUB_OVERFLOW_INDICATOR ++ pre) := by
      unfold trim_to_check_run_limit
      rw [if_pos (by omega)]
    refine ⟨he, ?_⟩
    intro out hout
    rw [he] at hout
    rcases hpre : takeBytes s (GITHUB_CHECK_RUN_MESSAGE_LIMIT -
        utf8Len GITHUB_OVERFLOW_INDICATOR) with _ | pre
    · rw [hpre] at hout
      cases hout
    · rw [hpre] at hout
      injection hout with hout
      obtain ⟨hb, hp⟩ := takeBytes_spec s _ pre hpre
      refine ⟨pre, hp, hout.symm, ?_⟩
      rw [← hout, utf8Len_append, hb]
      decide

/-- C5 counterexample: an over-limit message whose byte 65494 falls inside
a two-byte character makes the byte slice of `trim_to_check_run_limit`
panic instead of producing a trimmed message. -/
theorem trim_to_check_run_limit_counterexample :
    GITHUB_CHECK_RUN_MESSAGE_LIMIT <
        utf8Len (List.replicate 65493 'a' ++ 'é' :: List.replicate 50 'a') ∧
      trim_to_check_run_limit
        (List.replicate 65493 'a' ++ 'é' :: List.replicate 50 'a') = none := by
  have hlen : utf8Len (List.replicate 65493 'a' ++ 'é' :: List.replicate 50 'a') =
      65545 := by
    rw [utf8Len_append, utf8Len_replicate,
      show utf8Len ('é' :: List.replicate 50 'a') =
        Char.utf8Size 'é' + utf8Len (List.replicate 50 'a') from rfl,
      utf8Len_replicate]
    decide
  have h1 : takeBytes (List.replicate 65493 'a' ++ 'é' :: List.replicate 50 'a')
      65494 = (takeBytes ('é' :: List.replicate 50 'a') 1).map
        (fun t => List.replicate 65493 'a' ++ t) := by
    have h := takeBytes_replicate_append ('é' :: List.replicate 50 'a') 1 65493
    rw [show (65493 : Nat) + 1 = 65494 from by norm_num] at h
    exact h
  have h2 : takeBytes ('é' :: List.replicate 50 'a') 1 = none := by
    rw [show takeBytes ('é' :: List.replicate 50 'a') 1 =
      if Char.utf8Size 'é' ≤ 1 then
        (takeBytes (List.replicate 50 'a') (1 - Char.utf8Size 'é')).map
          (fun t => 'é' :: t)
      else none from rfl, if_neg (by decide)]
  constructor
  · rw [hlen]
    decide
  · unfold trim_to_check_run_limit
    rw [if_pos (by rw [hlen]; decide),
      show GITHUB_CHECK_RUN_MESSAGE_LIMIT - utf8Len GITHUB_OVERFLOW_INDICATOR =
        65494 from by decide, h1, h2]
    rfl

/-- Witness for C5: an all-ASCII input of 65536 bytes is trimmed to the
indicator plus its first 65494 bytes, 65535 bytes in total. -/
theorem trim_to_check_run_limit_witness :
    trim_to_check_run_limit (List.replicate 65536 'a') =
        some (GITHUB_OVERFLOW_INDICATOR ++ List.replicate 65494 'a') ∧
      utf8Len (GITHUB_OVERFLOW_INDICATOR ++ List.replicate 65494 'a') =
        GITHUB_CHECK_RUN_MESSAGE_LIMIT := by
  have hlen : utf8Len (List.replicate 65536 'a') = 65536 := by
    rw [utf8Len_replicate]
    decide
  have h := (trim_to_check_run_limit_spec (List.replicate 65536 'a')).2
    (by rw [hlen]; decide)
  constructor
  · rw [h.1,
      show GITHUB_CHECK_RUN_MESSAGE_LIMIT - utf8Len GITHUB_OVERFLOW_INDICATOR =
        65494 from by decide,
      takeBytes_replicate 65536 65494 (by omega)]
    rfl
  · rw [utf8Len_append, utf8Len_replicate]
    decide

/-- C3 counterexample: the claim states that trailing white-space-only
(non-empty) lines do not prevent extraction, but on
`"Some simple content.\n\nToken: value\n            "` the trailing
white-space line is a non-matching, non-empty line, so `extract` stops at
it and returns nothing, although without that line the same message yields
the `Token: value` trailer (this matches the
`test_trailers_extract_trailers_trailing_whitespace_line` unit test). -/
theorem trailer_extract_ws_counterexample :
    trailerExtract "Some simple content.\n\nToken: value\n            " = [] ∧
      trailerExtract "Some simple content.\n\nToken: value" =
        [("Token", "value")] := by
  constructor <;> decide

/-- C7: a work-in-progress merge request makes both merge entry points
(`merge_mr`, and `merge_mr_named` as used by `merge_many`) post exactly one
explanatory comment and return `Failed`, without fetching the merge
request, creating any merge commit, or pushing any ref. -/
theorem merge_wip_spec (mr : MergeRequestModel)
    (hwip : mr.work_in_progress = true) (fetchOk : Bool)
    (rest : List MergeEffect × Except MergeErrorModel MergeActionResult)
    (revParse revList : String → Option String)
    (createMerge : String → String → CreateMergeOutcome)
    (backports : List (String × Option String))
    (updateAndPush : Except MergeErrorModel MergeActionResult) :
    merge_mr mr fetchOk rest = (.ok .failed, [.postComment wipComment]) ∧
      merge_mr_named mr fetchOk revParse revList createMerge backports
          updateAndPush =
        (.ok .failed, [.postComment wipComment]) := by
  unfold merge_mr merge_mr_named prep_mr
  rw [hwip]
  exact ⟨rfl, rfl⟩

/-- Witness for C7 at a concrete work-in-progress merge request. -/
theorem merge_wip_witness :
    merge_mr
        { id := 1, work_in_progress := true, commit_id := "c",
          source_branch := "t", reference := "#1" }
        true ([.pushRefs [("c", "main")]], .ok .success) =
      (.ok .failed, [.postComment wipComment]) := by
  exact (merge_wip_spec _ rfl true _ (fun _ => none) (fun _ => none)
    (fun _ _ => .halted .failed) [] (.ok .success)).1

/-- C9: staging a merge request whose id is already on the stage with the
same commit returns `Ok` without invoking the stager: the stager state
(base, head and ordered topic list) is unchanged, no commit status is
posted, no head ref is pushed, and the only write to the hosting service is
one informational comment, suppressed when `quiet` is set. -/
theorem stage_idempotent_spec (st : StagerModel) (quiet : Bool)
    (mr : MergeRequestModel)
    (rest : StagerModel →
      Except StageErrorModel Unit × StagerModel × List StageEffect)
    (t : TopicModel) (hfind : find_topic_by_id st mr.id = some t)
    (hcommit : t.commit = mr.commit_id) :
    stage_merge_request st quiet mr true rest =
      (.ok (), st,
        .fetchMr :: (if quiet then [] else [.comment alreadyStagedComment])) := by
  unfold stage_merge_request
  rw [hfind]
  simp [hcommit]

/-- Witness for C9: a stage holding topic 5 at commit `c` ignores a request
to stage merge request 5 at commit `c`, leaving the state unchanged even
though the continuation would have changed it. -/
theorem stage_idempotent_witness :
    stage_merge_request ⟨"B", "H", [⟨"c", 5⟩]⟩ false
        { id := 5, work_in_progress := false, commit_id := "c",
          source_branch := "t", reference := "#5" }
        true
        (fun _ => (.ok (), ⟨"B2", "H2", []⟩, [.stagerStage, .headRefPush])) =
      (.ok (), ⟨"B", "H", [⟨"c", 5⟩]⟩,
        [.fetchMr, .comment alreadyStagedComment]) := by
  exact stage_idempotent_spec _ false _ _ ⟨"c", 5⟩ rfl rfl

/-- C10: when `git rev-list ^target mr-head` is empty (the merge-request
head is already contained in the target branch), `commit_state` returns
`OnTarget` for every commit whose `rev-parse` succeeds, even one unrelated
to the merge request, and `merge_mr_named` therefore fails with
`MergedCommit` — never with `UnrelatedCommit` — for every commit
override. -/
theorem merged_commit_on_target_spec (mr : MergeRequestModel)
    (hwip : mr.work_in_progress = false)
    (revParse revList : String → Option String)
    (createMerge : String → String → CreateMergeOutcome)
    (branch : String) (override : Option String)
    (rest : List (String × Option String))
    (updateAndPush : Except MergeErrorModel MergeActionResult)
    (s : String) (hparse : revParse (override.getD mr.commit_id) = some s)
    (hlist : revList branch = some "") :
    commit_state (override.getD mr.commit_id)
        (revParse (override.getD mr.commit_id)) (revList branch) =
      .ok .onTarget ∧
    (merge_mr_named mr true revParse revList createMerge
        ((branch, override) :: rest) updateAndPush).1 =
      .error (.mergedCommit (override.getD mr.commit_id)) ∧
    (∀ c, (merge_mr_named mr true revParse revList createMerge
        ((branch, override) :: rest) updateAndPush).1 ≠
      .error (.unrelatedCommit c)) := by
  have hcs : commit_state (override.getD mr.commit_id)
      (revParse (override.getD mr.commit_id)) (revList branch) =
      .ok .onTarget := by
    rw [hparse, hlist]
    rfl
  refine ⟨hcs, ?_, ?_⟩
  · unfold merge_mr_named prep_mr backportLoop
    rw [hwip]
    simp [hcs]
  · intro c
    unfold merge_mr_named prep_mr backportLoop
    rw [hwip]
    simp [hcs]

/-- Witness for C10: with an empty rev-list for `main`, an override commit
`zzz` unrelated to the merge request is still reported as `MergedCommit`. -/
theorem merged_commit_on_target_witness :
    (merge_mr_named
        { id := 2, work_in_progress := false, commit_id := "head",
          source_branch := "t", reference := "#2" }
        true (fun c => some c) (fun _ => some "")
        (fun _ _ => .halted .failed) [("main", some "zzz")]
        (.ok .success)).1 =
      .error (.mergedCommit "zzz") := by
  exact (merged_commit_on_target_spec _ rfl _ _ _ "main" (some "zzz") []
    (.ok .success) "zzz" rfl rfl).2.1


/-- Helper for C4: sleep durations for one more retry. -/
theorem pow_sleeps_step (t k : Nat) :
    (List.range (k + 1)).map (fun i => t * 2 ^ i) =
      t :: (List.range k).map (fun i => t * 2 * 2 ^ i) := by
  rw [List.range_succ_eq_map, List.map_cons, List.map_map]
  refine congrArg₂ _ (by simp) (List.map_congr_left ?_)
  intro i _
  show t * 2 ^ (i + 1) = t * 2 * 2 ^ i
  rw [pow_succ]
  ring

/-- Helper for C4: retryable errors then success. -/
theorem retryAux_ok {K : Type} (f : Nat → Except GithubError K) (v : K) :
    ∀ (k fuel calls t : Nat) (sleeps : List Nat), k < fuel →
      (∀ i, i < k → ∃ s, f (calls + i) = .error (.githubService s)) →
      f (calls + k) = .ok v →
      retryAux f fuel calls t sleeps =
        (.ok v, calls + k + 1,
          sleeps ++ (List.range k).map (fun i => t * 2 ^ i)) := by
  intro k
  induction k with
  | zero =>
    intro fuel calls t sleeps hfuel _ hok
    match fuel, hfuel with
    | fuel + 1, _ =>
      unfold retryAux
      rw [show calls + 0 = calls from rfl] at hok
      rw [hok]
      simp
  | succ k ih =>
    intro fuel calls t sleeps hfuel hretry hok
    match fuel, hfuel with
    | fuel + 1, hfuel =>
      obtain ⟨s, hs⟩ := hretry 0 (Nat.succ_pos k)
      rw [show calls + 0 = calls from rfl] at hs
      unfold retryAux
      rw [hs]
      show retryAux f fuel (calls + 1) (t * BACKOFF_SCALE) (sleeps ++ [t]) = _
      have ih2 := ih fuel (calls + 1) (t * BACKOFF_SCALE) (sleeps ++ [t])
        (Nat.lt_of_succ_lt_succ hfuel)
        (fun i hi => by
          have h := hretry (i + 1) (Nat.succ_lt_succ hi)
          rwa [show calls + (i + 1) = calls + 1 + i by omega] at h)
        (by rw [show calls + 1 + k = calls + (k + 1) by omega]; exact hok)
      rw [ih2]
      simp only [BACKOFF_SCALE]
      rw [pow_sleeps_step]
      simp [List.append_assoc, Prod.ext_iff]
      omega

/-- Helper for C4: only retryable errors exhausts the fuel. -/
theorem retryAux_exhaust {K : Type} (f : Nat → Except GithubError K) :
    ∀ (fuel calls t : Nat) (sleeps : List Nat),
      (∀ i, i < fuel → ∃ s, f (calls + i) = .error (.githubService s)) →
      retryAux f fuel calls t sleeps =
        (.error .githubBackoff, calls + fuel,
          sleeps ++ (List.range fuel).map (fun i => t * 2 ^ i)) := by
  intro fuel
  induction fuel with
  | zero =>
    intro calls t sleeps _
    unfold retryAux
    simp
  | succ fuel ih =>
    intro calls t sleeps hretry
    obtain ⟨s, hs⟩ := hretry 0 (Nat.succ_pos fuel)
    rw [show calls + 0 = calls from rfl] at hs
    unfold retryAux
    rw [hs]
    show retryAux f fuel (calls + 1) (t * BACKOFF_SCALE) (sleeps ++ [t]) = _
    have ih2 := ih (calls + 1) (t * BACKOFF_SCALE) (sleeps ++ [t])
      (fun i hi => by
        have h := hretry (i + 1) (Nat.succ_lt_succ hi)
        rwa [show calls + (i + 1) = calls + 1 + i by omega] at h)
    rw [ih2]
    simp only [BACKOFF_SCALE]
    rw [pow_sleeps_step]
    simp [List.append_assoc, Prod.ext_iff]
    omega

/-- C4: a query returning retryable (HTTP 5xx `GithubService`) errors on
its first `k < 5` calls and then succeeding is called exactly `k + 1`
times and its success is returned; one that always fails retryably is
called exactly 5 times and `retry_with_backoff` produces the
backoff-exhausted error; a non-retryable error on the first call is
returned after exactly one call with no sleeping; and the sleep durations
between retryable attempts start at one second and double each time. -/
theorem retry_with_backoff_spec {K : Type} (f : Nat → Except GithubError K) :
    (∀ k v, k < BACKOFF_LIMIT →
      (∀ i, i < k → ∃ s, f i = .error (.githubService s)) →
      f k = .ok v →
      retry_with_backoff f =
        (.ok v, k + 1, (List.range k).map (fun i => 2 ^ i))) ∧
    ((∀ i, i < BACKOFF_LIMIT → ∃ s, f i = .error (.githubService s)) →
      retry_with_backoff f =
        (.error .githubBackoff, BACKOFF_LIMIT, [1, 2, 4, 8, 16])) ∧
    (∀ e, f 0 = .error e → e.should_backoff = false →
      retry_with_backoff f = (.error e, 1, [])) := by
  refine ⟨?_, ?_, ?_⟩
  · intro k v hk hretry hok
    unfold retry_with_backoff
    have h := retryAux_ok f v k BACKOFF_LIMIT 0 BACKOFF_START [] hk
      (fun i hi => by simpa using hretry i hi) (by simpa using hok)
    rw [h]
    simp [BACKOFF_START]
  · intro hretry
    unfold retry_with_backoff
    have h := retryAux_exhaust f BACKOFF_LIMIT 0 BACKOFF_START []
      (fun i hi => by simpa using hretry i hi)
    rw [h]
    refine congrArg _ (congrArg _ ?_)
    decide
  · intro e h0 hnb
    unfold retry_with_backoff BACKOFF_LIMIT retryAux
    rw [h0]
    show (if e.should_backoff = true then
        retryAux f 4 (0 + 1) (BACKOFF_START * BACKOFF_SCALE) ([] ++ [BACKOFF_START])
      else (.error e, 0 + 1, [])) = _
    rw [hnb]
    simp

/-- Witness for C4: two 500-errors then success means three calls and
sleeps of one and two seconds. -/
theorem retry_with_backoff_witness :
    retry_with_backoff
        (fun i => if i < 2 then .error (.githubService 500) else .ok (7 : Nat)) =
      (.ok 7, 3, [1, 2]) := by
  have h := (retry_with_backoff_spec
      (fun i => if i < 2 then .error (.githubService 500) else .ok (7 : Nat))).1
    2 7 (by decide)
    (fun i hi => ⟨500, by interval_cases i <;> rfl⟩) rfl
  rw [h]
  rfl


/-- Helper: `concatAll` splits over list append. -/
theorem concatAll_append (l1 l2 : List String) :
    concatAll (l1 ++ l2) = concatAll l1 ++ concatAll l2 := by
  induction l1 with
  | nil => simp [concatAll]
  | cons s rest ih => simp [concatAll, ih, String.append_assoc]

/-- Helper: the trailer section ends with the `Merge-request` trailer. -/
theorem trailerSummary_eq (trailers : List Trailer) (reference : String) :
    trailerSummaryOf trailers reference =
      concatAll (trailers.map (fun t => t.render ++ "\n")) ++
        ("Merge-request: " ++ reference ++ "\n") := by
  unfold trailerSummaryOf
  rw [List.map_append, concatAll_append]
  refine congrArg _ ?_
  show Trailer.render ⟨"Merge-request", reference⟩ ++ "\n" ++ "" = _
  rw [String.append_empty]
  unfold Trailer.render
  simp only [String.append_assoc]
  rfl

/-- C2 counterexample: with `merge_branch_as` equal to the branch and
`elide_branch_name` unset, the claim predicts the title suffix is omitted,
but `build_commit_message` still appends ` into main`. -/
theorem build_commit_message_counterexample :
    build_commit_message cexSettings "t" "" [] "#1" [] =
        "Merge topic \x27t\x27 into main\n\nMerge-request: #1\n" ∧
      "Merge topic \x27t\x27 into main\n\nMerge-request: #1\n" ≠
        "Merge topic \x27t\x27\n\nMerge-request: #1\n" := by
  constructor
  · rfl
  · decide

/-- C2 amended: the title is `Merge topic '<topic>'` followed by
` into <merge-name>` (the `merge_branch_as` override or else the branch)
unless `elide_branch_name` is set — equality of `merge_branch_as` with the
branch does not omit the suffix; the final trailer line is
`Merge-request: <reference>`; and the log section uses all produced lines,
replaces the entry at index `n` by `...` when `log_limit = some n` and more
than `n` entries exist, and is omitted entirely when `n = 0`. -/
theorem build_commit_message_spec (settings : MergeSettings)
    (topic_name description : String) (fullLog : List String)
    (reference : String) (trailers : List Trailer) :
    (settings.elide_branch_name = false →
      ∃ rest, build_commit_message settings topic_name description fullLog
          reference trailers =
        ("Merge topic \x27" ++ topic_name ++ "\x27" ++ " into " ++
          settings.merge_branch_as.getD settings.branch ++ "\n\n") ++ rest) ∧
    (settings.elide_branch_name = true →
      ∃ rest, build_commit_message settings topic_name description fullLog
          reference trailers =
        ("Merge topic \x27" ++ topic_name ++ "\x27" ++ "\n\n") ++ rest) ∧
    (∃ front, build_commit_message settings topic_name description fullLog
          reference trailers =
        front ++ ("Merge-request: " ++ reference ++ "\n")) ∧
    (settings.log_limit = some 0 →
      logSummaryOf settings.log_limit fullLog = "") ∧
    (∀ n, settings.log_limit = some n → 0 < n → n < fullLog.length →
      logLinesOf settings.log_limit fullLog = fullLog.take n ++ ["..."]) ∧
    (∀ n, settings.log_limit = some n → fullLog.length ≤ n →
      logLinesOf settings.log_limit fullLog = fullLog) := by
  have hmerge : ∀ r : String, "\x27" ++ (" into " ++ r) = "\x27 into " ++ r := by
    intro r
    rw [← String.append_assoc]
    exact congrArg (fun s => s ++ r) (by decide)
  refine ⟨?_, ?_, ?_, ?_, ?_, ?_⟩
  · intro helide
    refine ⟨topicSummaryOf description ++
      (logSummaryOf settings.log_limit fullLog ++
        trailerSummaryOf trailers reference), ?_⟩
    unfold build_commit_message MergeSettings.merge_name
    rw [helide]
    simp [String.append_assoc]
    rw [hmerge]
  · intro helide
    refine ⟨topicSummaryOf description ++
      (logSummaryOf settings.log_limit fullLog ++
        trailerSummaryOf trailers reference), ?_⟩
    unfold build_commit_message MergeSettings.merge_name
    rw [helide]
    simp [String.append_assoc, String.append_empty]
  · refine ⟨("Merge topic \x27" ++ topic_name ++ "\x27" ++
      (if settings.merge_name.1 then "" else " into " ++ settings.merge_name.2) ++
      "\n\n" ++ topicSummaryOf description ++
      logSummaryOf settings.log_limit fullLog ++
      concatAll (trailers.map (fun t => t.render ++ "\n"))), ?_⟩
    unfold build_commit_message
    rw [trailerSummary_eq]
    simp [String.append_assoc]
  · intro h
    simp [logSummaryOf, logLinesOf, h, concatAll]
  · intro n hn hpos hlen
    unfold logLinesOf
    rw [hn]
    have hlen1 : (fullLog.take (n + 1)).length = n + 1 := by
      rw [List.length_take]
      omega
    show (if n = 0 then [] else
      if (fullLog.take (n + 1)).length > n then
        (fullLog.take (n + 1)).set n "..." else fullLog.take (n + 1)) = _
    rw [if_neg (by omega), if_pos (by rw [hlen1]; omega)]
    rw [List.set_eq_take_cons_drop _ (by rw [hlen1]; omega)]
    rw [List.take_take, Nat.min_eq_left (Nat.le_succ n),
      List.drop_eq_nil_of_le (by rw [hlen1])]
  · intro n hn hle
    unfold logLinesOf
    rw [hn]
    show (if n = 0 then [] else
      if (fullLog.take (n + 1)).length > n then
        (fullLog.take (n + 1)).set n "..." else fullLog.take (n + 1)) = _
    by_cases h0 : n = 0
    · subst h0
      rw [if_pos rfl]
      exact (List.eq_nil_of_length_eq_zero (Nat.le_zero.mp hle)).symm
    · rw [if_neg h0]
      have hraw : fullLog.take (n + 1) = fullLog :=
        List.take_of_length_le (by omega)
      rw [hraw, if_neg (by omega)]

/-- Witness for C2: with `merge_branch_as` equal to the branch the title
still carries the ` into main` suffix, and a log limit of 1 against two
log entries keeps the first entry and elides the second as `...`. -/
theorem build_commit_message_witness :
    (∃ rest, build_commit_message
        { branch := "main", merge_branch_as := some "main",
          into_branches := [], quiet := false, log_limit := some 1,
          elide_branch_name := false, merge_topology := .noFastForward }
        "t" "" ["a", "b"] "#7" [] =
      ("Merge topic \x27" ++ "t" ++ "\x27" ++ " into " ++
        ((some "main").getD "main") ++ "\n\n") ++ rest) ∧
    logLinesOf (some 1) ["a", "b"] = ["a", "..."] := by
  constructor
  · exact (build_commit_message_spec _ "t" "" ["a", "b"] "#7" []).1 rfl
  · have h := (build_commit_message_spec
      { branch := "main", merge_branch_as := some "main",
        into_branches := [], quiet := false, log_limit := some 1,
        elide_branch_name := false, merge_topology := .noFastForward }
      "t" "" ["a", "b"] "#7" []).2.2.2.2.1 1 rfl (by decide) (by decide)
    simpa using h

/-- Helper for C6: a step on a commit satisfying the elision condition maps
it to its rewritten parent and records it as dropped. -/
theorem reformatStep_drop (ctx : ReformatCtx)
    (acc : List (String × String) × List String) (c p : String)
    (hp : (ctx.parents c).map (rewriteLookup acc.1) = [p])
    (h1 : ctx.diffEmpty c = false)
    (h2 : ctx.diffEmpty (ctx.newCommitOf c
      ((ctx.parents c).map (rewriteLookup acc.1))) = true) :
    reformatStep ctx acc c = ((c, rewriteLookup acc.1 p) :: acc.1, acc.2 ++ [c]) := by
  simp only [reformatStep]
  rw [hp] at h2 ⊢
  show (if ctx.diffEmpty c = false ∧ ctx.diffEmpty (ctx.newCommitOf c [p]) = true then
      ((c, rewriteLookup acc.1 p) :: acc.1, acc.2 ++ [c])
    else ((c, ctx.newCommitOf c [p]) :: acc.1, acc.2)) = _
  rw [if_pos ⟨h1, h2⟩]

/-- Helper for C6: a step on a commit not satisfying the elision condition
keeps the commit, mapping it to its reformatted image. -/
theorem reformatStep_keep (ctx : ReformatCtx)
    (acc : List (String × String) × List String) (c : String)
    (h : ¬ dropCond ctx acc.1 c) :
    reformatStep ctx acc c =
      ((c, ctx.newCommitOf c ((ctx.parents c).map (rewriteLookup acc.1))) :: acc.1,
        acc.2) := by
  simp only [reformatStep]
  split
  · next p heq =>
    have hnc : ¬(ctx.diffEmpty c = false ∧
        ctx.diffEmpty (ctx.newCommitOf c
          ((ctx.parents c).map (rewriteLookup acc.1))) = true) := by
      intro hcond
      exact h ⟨p, heq, hcond.1, hcond.2⟩
    rw [if_neg hnc]
  · rfl

/-- Helper: looking up the key just prepended to a rewrite map. -/
theorem rewriteLookup_cons_self (m : List (String × String)) (k v : String) :
    rewriteLookup ((k, v) :: m) k = v := by
  unfold rewriteLookup
  rw [List.find?_cons_of_pos _ (by simp)]

/-- Helper for C6: each step prepends exactly one rewrite-map entry for its
commit. -/
theorem reformatStep_map_cons (ctx : ReformatCtx)
    (acc : List (String × String) × List String) (c : String) :
    ∃ v, (reformatStep ctx acc c).1 = (c, v) :: acc.1 := by
  simp only [reformatStep]
  split
  · split
    · exact ⟨_, rfl⟩
    · exact ⟨_, rfl⟩
  · exact ⟨_, rfl⟩

/-- Helper for C6: each step either keeps the dropped list or appends its
own commit. -/
theorem reformatStep_dropped_cases (ctx : ReformatCtx)
    (acc : List (String × String) × List String) (c : String) :
    (reformatStep ctx acc c).2 = acc.2 ∨
      (reformatStep ctx acc c).2 = acc.2 ++ [c] := by
  simp only [reformatStep]
  split
  · split
    · right; rfl
    · left; rfl
  · left; rfl

/-- Helper for C6: folding over a commit list only appends commits of that
list to the dropped list. -/
theorem reformat_foldl_dropped (ctx : ReformatCtx) :
    ∀ (l : List String) (acc : List (String × String) × List String),
      ∃ d, (l.foldl (reformatStep ctx) acc).2 = acc.2 ++ d ∧ ∀ x ∈ d, x ∈ l := by
  intro l
  induction l with
  | nil => exact fun acc => ⟨[], by simp⟩
  | cons c rest ih =>
    intro acc
    obtain ⟨d, hd, hmem⟩ := ih (reformatStep ctx acc c)
    rcases reformatStep_dropped_cases ctx acc c with h | h
    · exact ⟨d, by rw [List.foldl_cons, hd, h], fun x hx => List.mem_cons_of_mem _ (hmem x hx)⟩
    · refine ⟨c :: d, ?_, ?_⟩
      · rw [List.foldl_cons, hd, h, List.append_assoc]
        rfl
      · intro x hx
        rcases List.mem_cons.mp hx with h | h
        · exact h ▸ List.mem_cons_self _ _
        · exact List.mem_cons_of_mem _ (hmem x h)

/-- Helper for C6: folding over commits not containing `x` does not change
the rewrite of `x`. -/
theorem reformat_foldl_lookup (ctx : ReformatCtx) :
    ∀ (l : List String) (acc : List (String × String) × List String)
      (x : String), x ∉ l →
      rewriteLookup (l.foldl (reformatStep ctx) acc).1 x =
        rewriteLookup acc.1 x := by
  intro l
  induction l with
  | nil => intro acc x _; rfl
  | cons c rest ih =>
    intro acc x hx
    have hxc : x ≠ c := fun h => hx (h ▸ List.mem_cons_self _ _)
    have hxr : x ∉ rest := fun h => hx (List.mem_cons_of_mem _ h)
    rw [List.foldl_cons, ih _ x hxr]
    obtain ⟨v, hv⟩ := reformatStep_map_cons ctx acc c
    rw [hv]
    unfold rewriteLookup
    rw [List.find?_cons_of_neg _ (by simp [Ne.symm hxc])]

/-- C6: in `reformat_mr` a commit is dropped from the history (recorded in
the dropped list and mapped to its rewritten parent) if and only if it has
exactly one parent, its original diff is non-empty, and its reformatted
diff against the rewritten parent is empty; in particular a merge commit is
never dropped. -/
theorem reformat_mr_elision_spec (ctx : ReformatCtx) (l₁ l₂ : List String)
    (c : String) (hnd : (l₁ ++ c :: l₂).Nodup) (mrCommit : String) :
    (c ∈ (reformat_mr ctx (l₁ ++ c :: l₂) mrCommit).1.2 ↔
      dropCond ctx (l₁.foldl (reformatStep ctx) ([], [])).1 c) ∧
    ((ctx.parents c).length ≠ 1 →
      c ∉ (reformat_mr ctx (l₁ ++ c :: l₂) mrCommit).1.2) ∧
    (∀ p, (ctx.parents c).map
          (rewriteLookup (l₁.foldl (reformatStep ctx) ([], [])).1) = [p] →
      ctx.diffEmpty c = false →
      ctx.diffEmpty (ctx.newCommitOf c ((ctx.parents c).map
        (rewriteLookup (l₁.foldl (reformatStep ctx) ([], [])).1))) = true →
      rewriteLookup (reformat_mr ctx (l₁ ++ c :: l₂) mrCommit).1.1 c =
        rewriteLookup (l₁.foldl (reformatStep ctx) ([], [])).1 p) := by
  have hc1 : c ∉ l₁ := by
    rw [List.nodup_append] at hnd
    exact fun h => hnd.2.2 h (List.mem_cons_self _ _)
  have hc2 : c ∉ l₂ := by
    rw [List.nodup_append] at hnd
    exact (List.nodup_cons.mp hnd.2.1).1
  set stPre := l₁.foldl (reformatStep ctx) ([], []) with hstPre
  have hfold : (l₁ ++ c :: l₂).foldl (reformatStep ctx) ([], []) =
      l₂.foldl (reformatStep ctx) (reformatStep ctx stPre c) := by
    rw [List.foldl_append, List.foldl_cons]
  have hpre2 : ∀ x ∈ stPre.2, x ∈ l₁ := by
    obtain ⟨d, hd, hmem⟩ := reformat_foldl_dropped ctx l₁ ([], [])
    rw [hstPre, hd]
    simpa using hmem
  refine ⟨?_, ?_, ?_⟩
  · constructor
    · intro hmem
      by_contra hcond
      have hkeep := reformatStep_keep ctx stPre c hcond
      obtain ⟨d, hd, hdm⟩ := reformat_foldl_dropped ctx l₂ (reformatStep ctx stPre c)
      rw [reformat_mr, hfold, hd, hkeep] at hmem
      simp only [List.mem_append] at hmem
      rcases hmem with h | h
      · exact hc1 (hpre2 c h)
      · exact hc2 (hdm c h)
    · intro hcond
      obtain ⟨p, hp, h1, h2⟩ := hcond
      have hdrop := reformatStep_drop ctx stPre c p hp h1 h2
      obtain ⟨d, hd, _⟩ := reformat_foldl_dropped ctx l₂ (reformatStep ctx stPre c)
      rw [reformat_mr, hfold, hd, hdrop]
      simp
  · intro hlen hmem
    by_cases hcond : dropCond ctx stPre.1 c
    · obtain ⟨p, hp, _, _⟩ := hcond
      have : (ctx.parents c).length = 1 := by
        have := congrArg List.length hp
        simpa using this
      exact hlen this
    · have hkeep := reformatStep_keep ctx stPre c hcond
      obtain ⟨d, hd, hdm⟩ := reformat_foldl_dropped ctx l₂ (reformatStep ctx stPre c)
      rw [reformat_mr, hfold, hd, hkeep] at hmem
      simp only [List.mem_append] at hmem
      rcases hmem with h | h
      · exact hc1 (hpre2 c h)
      · exact hc2 (hdm c h)
  · intro p hp h1 h2
    have hdrop := reformatStep_drop ctx stPre c p hp h1 h2
    rw [reformat_mr, hfold]
    show rewriteLookup (l₂.foldl (reformatStep ctx) (reformatStep ctx stPre c)).1 c = _
    rw [reformat_foldl_lookup ctx l₂ _ c hc2, hdrop]
    show rewriteLookup ((c, rewriteLookup stPre.1 p) :: stPre.1) c = _
    exact rewriteLookup_cons_self _ _ _

/-- Witness for C6: commit `b` (one parent, originally non-empty, empty
after reformatting) is dropped and mapped to the rewrite of its parent
`a`, while `a` (non-empty after reformatting) is kept. -/
theorem reformat_mr_elision_witness :
    (reformat_mr
        { parents := fun x => if x = "b" then ["a"] else if x = "a" then ["base"] else [],
          diffEmpty := fun x => x = "nb",
          newCommitOf := fun x _ => "n" ++ x }
        ["a", "b"] "b").1.2 = ["b"] ∧
      (reformat_mr
        { parents := fun x => if x = "b" then ["a"] else if x = "a" then ["base"] else [],
          diffEmpty := fun x => x = "nb",
          newCommitOf := fun x _ => "n" ++ x }
        ["a", "b"] "b").2 = "na" := by
  have h := reformat_mr_elision_spec
    { parents := fun x => if x = "b" then ["a"] else if x = "a" then ["base"] else [],
      diffEmpty := fun x => x = "nb",
      newCommitOf := fun x _ => "n" ++ x }
    ["a"] [] "b" (by decide) "b"
  refine ⟨?_, rfl⟩
  have hmem := h.1.mpr ⟨"na", by rfl, by decide, by rfl⟩
  show ((["a"] ++ ["b"]).foldl (reformatStep _) ([], [])).2 = ["b"]
  rfl

/-- Helper for C3: `whileSome` takes all values of an all-`some` block. -/
theorem whileSome_append_isSome {α : Type} (l1 l2 : List (Option α))
    (h : ∀ x ∈ l1, x.isSome = true) :
    whileSome (l1 ++ l2) = l1.filterMap id ++ whileSome l2 := by
  induction l1 with
  | nil => simp
  | cons x rest ih =>
    match x, h x (List.mem_cons_self _ _) with
    | some a, _ =>
      show whileSome (some a :: (rest ++ l2)) = _
      rw [whileSome]
      rw [ih (fun y hy => h y (List.mem_cons_of_mem _ hy))]
      simp [List.filterMap_cons]

/-- Helper for C3: the head of a `dropWhile` result fails the predicate. -/
theorem head_dropWhile_false {α : Type} (p : α → Bool) :
    ∀ (l : List α) (x : α), (l.dropWhile p).head? = some x → p x = false := by
  intro l
  induction l with
  | nil => intro x h; cases h
  | cons a rest ih =>
    intro x h
    rw [List.dropWhile_cons] at h
    by_cases hp : p a = true
    · rw [if_pos hp] at h
      exact ih x h
    · rw [if_neg hp] at h
      cases h
      exact Bool.eq_false_iff.mpr hp

/-- C3 amended: `extract` returns exactly the maximal tail run of
consecutive regex-matching lines, in source order, where trailing empty
lines are skipped first; any non-matching line — including a
white-space-only one — ends the run, dropping everything before it. -/
theorem trailer_extract_characterization (content : String) :
    ∃ pre run emp : List String,
      rustLines content = pre ++ run ++ emp ∧
      (∀ l ∈ emp, l = "") ∧
      (∀ l ∈ run, (trailerCapture l).isSome = true) ∧
      trailerExtract content = run.filterMap trailerCapture ∧
      (∀ l, pre.getLast? = some l → trailerCapture l = none) ∧
      (∀ l, (pre ++ run).getLast? = some l → l ≠ "") := by
  set rls := (rustLines content).reverse with hrls
  set empR := rls.takeWhile (fun l => l = "") with hempR
  set restR := rls.dropWhile (fun l => l = "") with hrestR
  set runR := restR.takeWhile (fun l => (trailerCapture l).isSome) with hrunR
  set preR := restR.dropWhile (fun l => (trailerCapture l).isSome) with hpreR
  have hsplit1 : empR ++ restR = rls := List.takeWhile_append_dropWhile _ _
  have hsplit2 : runR ++ preR = restR := List.takeWhile_append_dropWhile _ _
  refine ⟨preR.reverse, runR.reverse, empR.reverse, ?_, ?_, ?_, ?_, ?_, ?_⟩
  · have h1 : rls.reverse = preR.reverse ++ (runR.reverse ++ empR.reverse) := by
      rw [← hsplit1, ← hsplit2]
      simp [List.reverse_append, List.append_assoc]
    rw [show rustLines content = rls.reverse by rw [hrls, List.reverse_reverse],
      h1]
    simp [List.append_assoc]
  · intro l hl
    have := List.mem_takeWhile_imp (List.mem_reverse.mp hl)
    simpa using this
  · intro l hl
    exact @List.mem_takeWhile_imp _ (fun l => (trailerCapture l).isSome) restR l
      (List.mem_reverse.mp hl)
  · unfold trailerExtract
    rw [← hrls, ← hrestR, ← hsplit2, List.map_append]
    rw [whileSome_append_isSome _ _
      (fun x hx => by
        obtain ⟨l, hl, hxl⟩ := List.mem_map.mp hx
        rw [← hxl]
        exact @List.mem_takeWhile_imp _ (fun l => (trailerCapture l).isSome)
          restR l hl)]
    have hpre : whileSome (preR.map trailerCapture) = [] := by
      match hh : preR with
      | [] => rfl
      | l0 :: rest =>
        have h0 : (trailerCapture l0).isSome = false := by
          apply head_dropWhile_false (fun l => (trailerCapture l).isSome) restR l0
          rw [← hpreR]
          rfl
        have hnone : trailerCapture l0 = none := by
          rcases hcap : trailerCapture l0 with _ | v
          · rfl
          · rw [hcap] at h0
            cases h0
        rw [List.map_cons, hnone]
        rfl
    rw [hpre, List.append_nil, List.filterMap_map]
    show (runR.filterMap trailerCapture).reverse = _
    rw [← List.filterMap_reverse]
  · intro l hl
    rw [List.getLast?_reverse] at hl
    have h0 : (trailerCapture l).isSome = false :=
      head_dropWhile_false (fun l => (trailerCapture l).isSome) restR l
        (by rw [← hpreR]; exact hl)
    rcases hcap : trailerCapture l with _ | v
    · rfl
    · rw [hcap] at h0
      cases h0
  · intro l hl
    rw [show preR.reverse ++ runR.reverse = restR.reverse by
      rw [← List.reverse_append, hsplit2]] at hl
    rw [List.getLast?_reverse] at hl
    have h0 := head_dropWhile_false (fun l => l = "") rls l
      (by rw [← hrestR]; exact hl)
    simpa using h0

mutual

/-- The links of an into-branch tree are the parent/child-name pairs of its
node list. -/
theorem mem_topoLinks (p c : String) : (ib : IntoBranch) →
    ((p, c) ∈ ib.topoLinks ↔
      ∃ ch, (p, ch) ∈ pairsOf ib ∧ c ∈ ch.map IntoBranch.name)
  | .mk n chain => by
    rw [show (IntoBranch.mk n chain).topoLinks = topoLinksFrom n chain from rfl,
      mem_topoLinksFrom p c n chain,
      show pairsOf (IntoBranch.mk n chain) = (n, chain) :: pairsOfList chain
        from rfl]
    simp only [List.mem_cons, Prod.mk.injEq]
    constructor
    · rintro (⟨rfl, hc⟩ | ⟨ch, hch, hc⟩)
      · exact ⟨chain, Or.inl ⟨rfl, rfl⟩, hc⟩
      · exact ⟨ch, Or.inr hch, hc⟩
    · rintro ⟨ch, ⟨rfl, rfl⟩ | hch, hc⟩
      · exact Or.inl ⟨rfl, hc⟩
      · exact Or.inr ⟨ch, hch, hc⟩

/-- The links added below a node named `n` with forest `l` are the edge from
`n` to each top-level name together with the parent/child-name pairs inside
`l`. -/
theorem mem_topoLinksFrom (p c n : String) : (l : List IntoBranch) →
    ((p, c) ∈ topoLinksFrom n l ↔
      (p = n ∧ c ∈ l.map IntoBranch.name) ∨
      ∃ ch, (p, ch) ∈ pairsOfList l ∧ c ∈ ch.map IntoBranch.name)
  | [] => by simp [topoLinksFrom, pairsOfList]
  | ib :: rest => by
    rw [show topoLinksFrom n (ib :: rest) =
        (n, ib.name) :: (ib.topoLinks ++ topoLinksFrom n rest) from rfl,
      show pairsOfList (ib :: rest) = pairsOf ib ++ pairsOfList rest from rfl]
    simp only [List.mem_cons, List.mem_append, List.map_cons,
      mem_topoLinks p c ib, mem_topoLinksFrom p c n rest, Prod.mk.injEq]
    constructor
    · rintro (⟨rfl, rfl⟩ | ⟨ch, hch, hc⟩ | ⟨rfl, hc⟩ | ⟨ch, hch, hc⟩)
      · exact Or.inl ⟨rfl, Or.inl rfl⟩
      · exact Or.inr ⟨ch, Or.inl hch, hc⟩
      · exact Or.inl ⟨rfl, Or.inr hc⟩
      · exact Or.inr ⟨ch, Or.inr hch, hc⟩
    · rintro (⟨rfl, hc | hc⟩ | ⟨ch, hch | hch, hc⟩)
      · exact Or.inl ⟨rfl, hc⟩
      · exact Or.inr (Or.inr (Or.inl ⟨rfl, hc⟩))
      · exact Or.inr (Or.inl ⟨ch, hch, hc⟩)
      · exact Or.inr (Or.inr (Or.inr ⟨ch, hch, hc⟩))

end

mutual

/-- Each node of a tree heads a contiguous block of its descendants. -/
theorem sub_pairsOf (k : String) (ch : List IntoBranch) : (ib : IntoBranch) →
    (k, ch) ∈ pairsOf ib → ((k, ch) :: pairsOfList ch).Sublist (pairsOf ib)
  | .mk n c => fun h => by
    rw [show pairsOf (IntoBranch.mk n c) = (n, c) :: pairsOfList c from rfl]
      at h ⊢
    rcases List.mem_cons.mp h with h | h
    · injection h with h1 h2
      subst h1; subst h2
      exact List.Sublist.refl _
    · exact (sub_pairsOfList k ch c h).cons _

/-- Each node of a forest heads a contiguous block of its descendants. -/
theorem sub_pairsOfList (k : String) (ch : List IntoBranch) :
    (l : List IntoBranch) →
    (k, ch) ∈ pairsOfList l → ((k, ch) :: pairsOfList ch).Sublist (pairsOfList l)
  | [], h => by simp [pairsOfList] at h
  | ib :: rest, h => by
    rw [show pairsOfList (ib :: rest) = pairsOf ib ++ pairsOfList rest from rfl]
      at h ⊢
    rcases List.mem_append.mp h with h | h
    · exact (sub_pairsOf k ch ib h).trans (List.sublist_append_left _ _)
    · exact (sub_pairsOfList k ch rest h).trans (List.sublist_append_right _ _)

end

/-- A top-level member of a forest has a node entry in the forest. -/
theorem mem_pairsOfList_of_mem (ib : IntoBranch) :
    ∀ l : List IntoBranch, ib ∈ l →
      (ib.name, ib.chain_branches) ∈ pairsOfList l := by
  intro l
  induction l with
  | nil => intro h; cases h
  | cons a rest ih =>
    intro h
    rw [show pairsOfList (a :: rest) = pairsOf a ++ pairsOfList rest from rfl]
    rcases List.mem_cons.mp h with h | h
    · subst h
      rcases ib with ⟨n, c⟩
      exact List.mem_append_left _ (List.mem_cons_self _ _)
    · exact List.mem_append_right _ (ih h)

/-- Swap the first two blocks of a three-block concatenation. -/
theorem perm_middle_swap {α : Type} (A B C : List α) :
    (A ++ (B ++ C)).Perm (B ++ (A ++ C)) := by
  rw [← List.append_assoc, ← List.append_assoc]
  exact List.perm_append_comm.append_right C

mutual

/-- The multiset of node names of a tree: its own name together with the
child names of each node. -/
theorem names_perm : (ib : IntoBranch) →
    (namesOf ib).Perm
      (ib.name :: (pairsOf ib).flatMap (fun pr => pr.2.map IntoBranch.name))
  | .mk n chain => by
    rw [show namesOf (IntoBranch.mk n chain) = n :: namesOfList chain from rfl,
      show pairsOf (IntoBranch.mk n chain) = (n, chain) :: pairsOfList chain
        from rfl,
      show ((n, chain) :: pairsOfList chain).flatMap
          (fun pr => pr.2.map IntoBranch.name) =
        chain.map IntoBranch.name ++
          (pairsOfList chain).flatMap (fun pr => pr.2.map IntoBranch.name)
        from rfl]
    exact (namesList_perm chain).cons n

/-- The multiset of node names of a forest: the top-level names together
with the child names of each node. -/
theorem namesList_perm : (l : List IntoBranch) →
    (namesOfList l).Perm
      (l.map IntoBranch.name ++
        (pairsOfList l).flatMap (fun pr => pr.2.map IntoBranch.name))
  | [] => by simp [namesOfList, pairsOfList]
  | ib :: rest => by
    rw [show namesOfList (ib :: rest) = namesOf ib ++ namesOfList rest
        from rfl,
      show pairsOfList (ib :: rest) = pairsOf ib ++ pairsOfList rest from rfl,
      List.map_cons, List.flatMap_append]
    exact ((names_perm ib).append (namesList_perm rest)).trans
      ((perm_middle_swap _ _ _).cons ib.name)

end

mutual

/-- The keys of a tree's node list are its names. -/
theorem fst_pairsOf : (ib : IntoBranch) →
    (pairsOf ib).map (fun pr => pr.1) = namesOf ib
  | .mk n chain => by
    rw [show pairsOf (IntoBranch.mk n chain) = (n, chain) :: pairsOfList chain
        from rfl, List.map_cons, fst_pairsOfList chain]
    rfl

/-- The keys of a forest's node list are its names. -/
theorem fst_pairsOfList : (l : List IntoBranch) →
    (pairsOfList l).map (fun pr => pr.1) = namesOfList l
  | [] => rfl
  | ib :: rest => by
    rw [show pairsOfList (ib :: rest) = pairsOf ib ++ pairsOfList rest from rfl,
      List.map_append, fst_pairsOf ib, fst_pairsOfList rest]
    rfl

end

/-- A block of a concatenation is a sublist of it. -/
theorem sublist_flatMap_of_mem {α β : Type} (f : α → List β) :
    ∀ (l : List α) (a : α), a ∈ l → (f a).Sublist (l.flatMap f) := by
  intro l
  induction l with
  | nil => intro a h; cases h
  | cons x rest ih =>
    intro a h
    rcases List.mem_cons.mp h with h | h
    · subst h
      exact List.sublist_append_left _ _
    · exact ((ih a h).trans (List.sublist_append_right _ _))

/-- Concatenation maps preserve sublists. -/
theorem sublist_flatMap_mono {α β : Type} (f : α → List β) :
    ∀ {l₁ l₂ : List α}, l₁.Sublist l₂ → (l₁.flatMap f).Sublist (l₂.flatMap f) := by
  intro l₁ l₂ h
  induction h with
  | slnil => exact List.Sublist.refl _
  | cons a h ih => exact ih.trans (List.sublist_append_right _ _)
  | cons₂ a h ih => exact (List.append_sublist_append_left _).mpr ih

/-- Two distinct members occur in one order or the other as a sublist. -/
theorem pair_sublist_of_mem_ne {α : Type} {l : List α} {a b : α}
    (ha : a ∈ l) (hb : b ∈ l) (hne : a ≠ b) :
    [a, b].Sublist l ∨ [b, a].Sublist l := by
  induction l with
  | nil => cases ha
  | cons x rest ih =>
    rcases List.mem_cons.mp ha with h1 | h1
    · subst h1
      rcases List.mem_cons.mp hb with h2 | h2
      · exact absurd h2.symm hne
      · exact Or.inl ((List.singleton_sublist.mpr h2).cons₂ a)
    · rcases List.mem_cons.mp hb with h2 | h2
      · subst h2
        exact Or.inr ((List.singleton_sublist.mpr h1).cons₂ b)
      · rcases ih h1 h2 with h | h
        · exact Or.inl (h.cons x)
        · exact Or.inr (h.cons x)

/-- Edges of the sorter graph are exactly the parent/child-name pairs of the
configuration's nodes. -/
theorem mem_rootsEdges (roots : MergeRoots) (p c : String) :
    (p, c) ∈ rootsEdges roots ↔
      ∃ ch, (p, ch) ∈ nodePairs roots ∧ c ∈ ch.map IntoBranch.name := by
  rw [rootsEdges, nodePairs, List.mem_flatMap]
  constructor
  · rintro ⟨r, hr, hmem⟩
    rcases (mem_topoLinksFrom p c r.1 r.2.2).mp hmem with ⟨rfl, hc⟩ | ⟨ch, hch, hc⟩
    · exact ⟨r.2.2, List.mem_flatMap.mpr ⟨r, hr, List.mem_cons_self _ _⟩, hc⟩
    · exact ⟨ch, List.mem_flatMap.mpr ⟨r, hr, List.mem_cons_of_mem _ hch⟩, hc⟩
  · rintro ⟨ch, hch, hc⟩
    rcases List.mem_flatMap.mp hch with ⟨r, hr, hmem⟩
    rcases List.mem_cons.mp hmem with h | h
    · injection h with h1 h2
      exact ⟨r, hr, (mem_topoLinksFrom p c r.1 r.2.2).mpr
        (Or.inl ⟨h1, h2 ▸ hc⟩)⟩
    · exact ⟨r, hr, (mem_topoLinksFrom p c r.1 r.2.2).mpr (Or.inr ⟨ch, h, hc⟩)⟩

/-- Each node of the configuration heads a contiguous block of its
descendants in the node list. -/
theorem sub_nodePairs (roots : MergeRoots) (k : String) (ch : List IntoBranch)
    (h : (k, ch) ∈ nodePairs roots) :
    ((k, ch) :: pairsOfList ch).Sublist (nodePairs roots) := by
  rw [nodePairs] at h ⊢
  rcases List.mem_flatMap.mp h with ⟨r, hr, hmem⟩
  have hseg : ((k, ch) :: pairsOfList ch).Sublist
      ((r.1, r.2.2) :: pairsOfList r.2.2) := by
    rcases List.mem_cons.mp hmem with h | h
    · injection h with h1 h2
      subst h1; subst h2
      exact List.Sublist.refl _
    · exact (sub_pairsOfList k ch r.2.2 h).cons _
  exact hseg.trans
    (sublist_flatMap_of_mem (fun r => (r.1, r.2.2) :: pairsOfList r.2.2) roots r hr)

/-- With duplicate-free keys, a key determines its chain. -/
theorem nodup_keys_unique {β : Type} :
    ∀ (l : List (String × β)), (l.map (fun e => e.1)).Nodup →
      ∀ k v w, (k, v) ∈ l → (k, w) ∈ l → v = w := by
  intro l
  induction l with
  | nil => intro _ k v w h; cases h
  | cons a rest ih =>
    obtain ⟨a1, a2⟩ := a
    intro hnd k v w hv hw
    rw [List.map_cons, List.nodup_cons] at hnd
    rcases List.mem_cons.mp hv with h1 | h1 <;>
      rcases List.mem_cons.mp hw with h2 | h2
    · injection h1 with h1a h1b
      injection h2 with h2a h2b
      exact h1b.trans h2b.symm
    · exfalso
      injection h1 with h1a h1b
      exact hnd.1 (h1a ▸ List.mem_map.mpr ⟨(k, w), h2, rfl⟩)
    · exfalso
      injection h2 with h2a h2b
      exact hnd.1 (h2a ▸ List.mem_map.mpr ⟨(k, v), h1, rfl⟩)
    · exact ih hnd.2 k v w h1 h2

/-- An edge's endpoints occur parent first in the branch list. -/
theorem edge_sublist_allBranches (roots : MergeRoots) (p c : String)
    (h : (p, c) ∈ rootsEdges roots) : [p, c].Sublist (allBranches roots) := by
  rcases (mem_rootsEdges roots p c).mp h with ⟨ch, hch, hc⟩
  rcases List.mem_map.mp hc with ⟨ib, hib, rfl⟩
  have hsub := sub_nodePairs roots p ch hch
  have hcm : (ib.name, ib.chain_branches) ∈ pairsOfList ch :=
    mem_pairsOfList_of_mem ib ch hib
  have hpair : [(p, ch), (ib.name, ib.chain_branches)].Sublist
      ((p, ch) :: pairsOfList ch) :=
    (List.singleton_sublist.mpr hcm).cons₂ _
  have := (hpair.trans hsub).map (fun e => e.1)
  simpa [allBranches] using this

/-- A configuration without repeated nodes has no self edge. -/
theorem no_self_edge (roots : MergeRoots) (hnd : NoRepeatedNodes roots)
    (b : String) : (b, b) ∉ rootsEdges roots := by
  intro h
  have := (edge_sublist_allBranches roots b b h).nodup hnd
  simp at this

/-- A per-element head/tail split of a concatenation map lifts to a
permutation pulling the heads to the front. -/
theorem flatMap_perm_split {α β : Type} (f g : α → List β) (k : α → β)
    (h : ∀ a, (f a).Perm (k a :: g a)) :
    ∀ l : List α, (l.flatMap f).Perm (l.map k ++ l.flatMap g) := by
  intro l
  induction l with
  | nil => simp
  | cons a rest ih =>
    show (f a ++ rest.flatMap f).Perm
      ((k a :: rest.map k) ++ (g a ++ rest.flatMap g))
    refine ((h a).append ih).trans ?_
    show (k a :: (g a ++ (rest.map k ++ rest.flatMap g))).Perm
      (k a :: (rest.map k ++ (g a ++ rest.flatMap g)))
    exact (perm_middle_swap _ _ _).cons _

/-- The branch list splits into the root targets and the child-name
occurrences. -/
theorem perm_allBranches (roots : MergeRoots) :
    (allBranches roots).Perm
      (roots.map (fun r => r.1) ++ childOccs roots) := by
  rw [allBranches, childOccs, nodePairs]
  rw [List.map_flatMap, List.flatMap_assoc]
  refine flatMap_perm_split _ _ (fun r => r.1) (fun r => ?_) roots
  show ((r.1, r.2.2) :: pairsOfList r.2.2).map (fun e => e.1) |>.Perm _
  rw [List.map_cons, fst_pairsOfList]
  exact (namesList_perm r.2.2).cons r.1

/-- Without repeated nodes the child-name occurrences are duplicate-free. -/
theorem childOccs_nodup (roots : MergeRoots) (hnd : NoRepeatedNodes roots) :
    (childOccs roots).Nodup :=
  (List.nodup_append.mp ((perm_allBranches roots).nodup hnd)).2.1

/-- Without repeated nodes a child branch has a unique parent. -/
theorem unique_parent (roots : MergeRoots) (hnd : NoRepeatedNodes roots)
    (p q c : String) (hp : (p, c) ∈ rootsEdges roots)
    (hq : (q, c) ∈ rootsEdges roots) : p = q := by
  by_contra hne
  rcases (mem_rootsEdges roots p c).mp hp with ⟨chp, hchp, hcp⟩
  rcases (mem_rootsEdges roots q c).mp hq with ⟨chq, hchq, hcq⟩
  have hpairne : (p, chp) ≠ (q, chq) := by
    intro h
    injection h with h1 h2
    exact hne h1
  have hsub : ([(p, chp), (q, chq)].flatMap
        (fun pr => pr.2.map IntoBranch.name)).Sublist (childOccs roots) ∨
      ([(q, chq), (p, chp)].flatMap
        (fun pr => pr.2.map IntoBranch.name)).Sublist (childOccs roots) := by
    rcases pair_sublist_of_mem_ne hchp hchq hpairne with h | h
    · exact Or.inl (sublist_flatMap_mono (fun pr => pr.2.map IntoBranch.name) h)
    · exact Or.inr (sublist_flatMap_mono (fun pr => pr.2.map IntoBranch.name) h)
  have hc1 := List.one_le_count_iff.mpr hcp
  have hc2 := List.one_le_count_iff.mpr hcq
  have hcount : 2 ≤ (childOccs roots).count c := by
    rcases hsub with h | h <;>
      refine le_trans ?_ (h.count_le c) <;>
      simp only [List.flatMap_cons, List.flatMap_nil, List.append_nil,
        List.count_append] <;>
      omega
  have := List.nodup_iff_count_le_one.mp (childOccs_nodup roots hnd) c
  omega

/-- Without repeated nodes a child branch is not a merged target. -/
theorem child_not_root (roots : MergeRoots) (hnd : NoRepeatedNodes roots)
    (p c : String) (hp : (p, c) ∈ rootsEdges roots)
    (hc : c ∈ roots.map (fun r => r.1)) : False := by
  rcases (mem_rootsEdges roots p c).mp hp with ⟨chp, hchp, hcp⟩
  have hocc : c ∈ childOccs roots :=
    List.mem_flatMap.mpr ⟨(p, chp), hchp, hcp⟩
  have hperm := (perm_allBranches roots).nodup hnd
  rw [List.nodup_append] at hperm
  exact hperm.2.2 hc hocc

/-- A sorter element is an endpoint of some added edge. -/
theorem mem_sorterNodes (edges : List (String × String)) (b : String) :
    b ∈ sorterNodes edges ↔ ∃ e ∈ edges, e.1 = b ∨ e.2 = b := by
  rw [sorterNodes, List.mem_dedup, List.mem_flatMap]
  constructor
  · rintro ⟨e, he, hb⟩
    rcases List.mem_cons.mp hb with h | h
    · exact ⟨e, he, Or.inl h.symm⟩
    · rcases List.mem_cons.mp h with h | h
      · exact ⟨e, he, Or.inr h.symm⟩
      · cases h
  · rintro ⟨e, he, h | h⟩
    · exact ⟨e, he, h ▸ List.mem_cons_self _ _⟩
    · exact ⟨e, he, h ▸ List.mem_cons_of_mem _ (List.mem_cons_self _ _)⟩

/-- An edge source is held by the sorter. -/
theorem edge_fst_mem_sorter (edges : List (String × String)) (p c : String)
    (h : (p, c) ∈ edges) : p ∈ sorterNodes edges :=
  (mem_sorterNodes edges p).mpr ⟨(p, c), h, Or.inl rfl⟩

/-- An edge target is held by the sorter. -/
theorem edge_snd_mem_sorter (edges : List (String × String)) (p c : String)
    (h : (p, c) ∈ edges) : c ∈ sorterNodes edges :=
  (mem_sorterNodes edges c).mpr ⟨(p, c), h, Or.inr rfl⟩

/-- An edge target has a node entry of its own. -/
theorem edge_snd_entry (roots : MergeRoots) (p c : String)
    (h : (p, c) ∈ rootsEdges roots) :
    ∃ cc, (c, cc) ∈ nodePairs roots := by
  rcases (mem_rootsEdges roots p c).mp h with ⟨ch, hch, hc⟩
  rcases List.mem_map.mp hc with ⟨ib, hib, rfl⟩
  exact ⟨ib.chain_branches,
    (sub_nodePairs roots p ch hch).subset
      (List.mem_cons_of_mem _ (mem_pairsOfList_of_mem ib ch hib))⟩

/-- Every sorter element is a branch of the configuration. -/
theorem sorter_subset_allBranches (roots : MergeRoots) (b : String)
    (h : b ∈ sorterNodes (rootsEdges roots)) : b ∈ allBranches roots := by
  rcases (mem_sorterNodes _ b).mp h with ⟨e, he, rfl | rfl⟩
  · rcases (mem_rootsEdges roots e.1 e.2).mp he with ⟨ch, hch, _⟩
    exact List.mem_map.mpr ⟨(e.1, ch), hch, rfl⟩
  · rcases edge_snd_entry roots e.1 e.2 he with ⟨cc, hcc⟩
    exact List.mem_map.mpr ⟨(e.2, cc), hcc, rfl⟩

/-- A branch is either a merged target or the child of some branch. -/
theorem mem_allBranches_cases (roots : MergeRoots) (b : String)
    (h : b ∈ allBranches roots) :
    b ∈ roots.map (fun r => r.1) ∨ ∃ p, (p, b) ∈ rootsEdges roots := by
  rcases List.mem_append.mp ((perm_allBranches roots).subset h) with h | h
  · exact Or.inl h
  · rcases List.mem_flatMap.mp h with ⟨pr, hpr, hb⟩
    exact Or.inr ⟨pr.1, (mem_rootsEdges roots pr.1 b).mpr ⟨pr.2, hpr, hb⟩⟩

/-- What it means for a branch to be free in the sorter. -/
theorem isFree_iff (edges : List (String × String)) (remaining : List String)
    (b : String) : isFree edges remaining b = true ↔
      b ∈ remaining ∧ ∀ e ∈ edges, e.2 = b → e.1 ∉ remaining := by
  rw [isFree, Bool.and_eq_true, List.all_eq_true]
  constructor
  · rintro ⟨h1, h2⟩
    refine ⟨by simpa using h1, fun e he hb hp => ?_⟩
    have h3 := h2 e he
    rw [hb] at h3
    simp only [beq_self_eq_true, Bool.not_true, Bool.false_or,
      Bool.not_eq_true'] at h3
    rw [show remaining.contains e.1 = true by simpa using hp] at h3
    cases h3
  · rintro ⟨h1, h2⟩
    refine ⟨by simpa using h1, fun e he => ?_⟩
    by_cases hb : e.2 = b
    · have h3 : remaining.contains e.1 = false := by
        have := h2 e he hb
        simpa using this
      rw [h3]
      simp
    · have h3 : (e.2 == b) = false := beq_eq_false_iff_ne.mpr hb
      rw [h3]
      simp

/-- When no free element is left, every remaining branch has a remaining
predecessor. -/
theorem noFreeLeft_blocked (edges : List (String × String))
    (remaining : List String) (h : noFreeLeft edges remaining = true)
    (b : String) (hb : b ∈ remaining) :
    ∃ p ∈ remaining, (p, b) ∈ edges := by
  rw [noFreeLeft, List.all_eq_true] at h
  have h2 := h b hb
  rw [Bool.not_eq_true'] at h2
  by_contra hno
  push_neg at hno
  have hfree : isFree edges remaining b = true :=
    (isFree_iff edges remaining b).mpr
      ⟨hb, fun e he h3 hp => hno e.1 hp (by rw [← h3]; exact he)⟩
  rw [hfree] at h2
  cases h2

/-- A non-empty set in which every element has a predecessor occurring
strictly earlier in a duplicate-free order cannot exist. -/
theorem no_all_blocked {α : Type} :
    ∀ abs : List α, abs.Nodup →
      ∀ rem : List α, rem ≠ [] →
        (∀ b ∈ rem, ∃ p ∈ rem, [p, b].Sublist abs) → False := by
  intro abs
  induction abs with
  | nil =>
    intro _ rem hne hblocked
    match rem, hne with
    | b :: rest, _ =>
      rcases hblocked b (List.mem_cons_self _ _) with ⟨p, _, hsub⟩
      have := List.sublist_nil.mp hsub
      cases this
  | cons a abs ih =>
    intro hnd rem hne hblocked
    rw [List.nodup_cons] at hnd
    have hanotin : a ∉ rem := by
      intro ha
      rcases hblocked a ha with ⟨p, _, hsub⟩
      cases hsub with
      | cons _ h => exact hnd.1 (h.subset (List.mem_cons_of_mem _ (List.mem_cons_self _ _)))
      | cons₂ _ h => exact hnd.1 (h.subset (List.mem_cons_self _ _))
    refine ih hnd.2 rem hne ?_
    intro b hb
    rcases hblocked b hb with ⟨p, hp, hsub⟩
    cases hsub with
    | cons _ h => exact ⟨p, hp, h⟩
    | cons₂ _ h => exact absurd hp hanotin

/-- A lookup skips a block with no match. -/
theorem find?_append_of_none {α : Type} (p : α → Bool) (l1 l2 : List α)
    (h : l1.find? p = none) : (l1 ++ l2).find? p = l2.find? p := by
  induction l1 with
  | nil => rfl
  | cons a l1 ih =>
    by_cases hpa : p a = true
    · rw [List.find?_cons_of_pos _ hpa] at h
      cases h
    · rw [List.find?_cons_of_neg _ (by simpa using hpa)] at h
      show (a :: (l1 ++ l2)).find? p = l2.find? p
      rw [List.find?_cons_of_neg _ (by simpa using hpa)]
      exact ih h

/-- A lookup keeps the first match across an append. -/
theorem find?_append_of_some {α : Type} (p : α → Bool) (l1 l2 : List α)
    (a : α) (h : l1.find? p = some a) : (l1 ++ l2).find? p = some a := by
  induction l1 with
  | nil => cases h
  | cons x l1 ih =>
    by_cases hpx : p x = true
    · rw [List.find?_cons_of_pos _ hpx] at h
      show (x :: (l1 ++ l2)).find? p = some a
      rw [List.find?_cons_of_pos _ hpx]
      exact h
    · rw [List.find?_cons_of_neg _ (by simpa using hpx)] at h
      show (x :: (l1 ++ l2)).find? p = some a
      rw [List.find?_cons_of_neg _ (by simpa using hpx)]
      exact ih h

/-- A key lookup succeeds exactly when the key is present. -/
theorem keyFind_isSome_iff {β : Type} (m : List (String × β)) (k : String) :
    (m.find? (fun e => e.1 == k)).isSome = true ↔
      k ∈ m.map (fun e => e.1) := by
  rw [List.find?_isSome]
  constructor
  · rintro ⟨e, he, hp⟩
    exact List.mem_map.mpr ⟨e, he, eq_of_beq hp⟩
  · rintro hk
    rcases List.mem_map.mp hk with ⟨e, he, rfl⟩
    exact ⟨e, he, beq_self_eq_true _⟩

/-- A lookup over a key-preserving per-entry update finds the updated
entry. -/
theorem find?_key_map_update {β : Type} (upd : String × β → String × β)
    (hupd : ∀ e, (upd e).1 = e.1) (m : List (String × β)) (k : String) :
    (m.map upd).find? (fun e => e.1 == k) =
      (m.find? (fun e => e.1 == k)).map upd := by
  rw [List.find?_map]
  have hpred : ((fun e : String × β => e.1 == k) ∘ upd) =
      fun e : String × β => e.1 == k := by
    funext e
    show ((upd e).1 == k) = (e.1 == k)
    rw [hupd]
  rw [hpred]

/-- A present key has a commit entry. -/
theorem alistGetCommit_isSome (m : List (String × String × List IntoBranch))
    (k : String) (h : k ∈ m.map (fun e => e.1)) :
    ∃ v, alistGetCommit m k = some v := by
  rw [alistGetCommit]
  rcases Option.isSome_iff_exists.mp ((keyFind_isSome_iff m k).mpr h)
    with ⟨e, he⟩
  exact ⟨e.2, by rw [he]; rfl⟩

/-- A successful commit lookup comes from an entry of the map. -/
theorem alistGetCommit_some (m : List (String × String × List IntoBranch))
    (k : String) (v : String × List IntoBranch)
    (h : alistGetCommit m k = some v) :
    ∃ e ∈ m, e.1 = k ∧ e.2 = v := by
  rw [alistGetCommit] at h
  rcases hfind : m.find? (fun e => e.1 == k) with _ | e
  · rw [hfind] at h
    cases h
  · rw [hfind] at h
    injection h with h2
    have hp := List.find?_some hfind
    exact ⟨e, List.mem_of_find?_eq_some hfind, eq_of_beq hp, h2⟩

/-- Updating a stored commit keeps the key list. -/
theorem keys_alistSetCommit (m : List (String × String × List IntoBranch))
    (k c : String) :
    (alistSetCommit m k c).map (fun e => e.1) = m.map (fun e => e.1) := by
  rw [alistSetCommit, List.map_map]
  refine List.map_congr_left ?_
  intro e _
  show (if e.1 == k then (e.1, c, e.2.2) else e).1 = e.1
  split <;> rfl

/-- Updating a stored commit keeps each entry's key and chain. -/
theorem mem_alistSetCommit (m : List (String × String × List IntoBranch))
    (k c : String) (e' : String × String × List IntoBranch)
    (h : e' ∈ alistSetCommit m k c) :
    ∃ e ∈ m, e'.1 = e.1 ∧ e'.2.2 = e.2.2 := by
  rw [alistSetCommit] at h
  rcases List.mem_map.mp h with ⟨e, he, rfl⟩
  refine ⟨e, he, ?_, ?_⟩ <;> split <;> rfl

/-- Seeding a present key changes nothing. -/
theorem alistSeed_of_mem (m : List (String × String × List IntoBranch))
    (k : String) (v : String × List IntoBranch)
    (h : k ∈ m.map (fun e => e.1)) : alistSeed m k v = m := by
  rw [alistSeed, if_pos ((keyFind_isSome_iff m k).mpr h)]

/-- Seeding an absent key appends its entry. -/
theorem alistSeed_of_not_mem (m : List (String × String × List IntoBranch))
    (k : String) (v : String × List IntoBranch)
    (h : k ∉ m.map (fun e => e.1)) : alistSeed m k v = m ++ [(k, v)] := by
  rw [alistSeed, if_neg]
  intro hs
  exact h ((keyFind_isSome_iff m k).mp hs)

/-- After seeding, the key is present. -/
theorem mem_keys_alistSeed_self (m : List (String × String × List IntoBranch))
    (k : String) (v : String × List IntoBranch) :
    k ∈ (alistSeed m k v).map (fun e => e.1) := by
  by_cases h : k ∈ m.map (fun e => e.1)
  · rw [alistSeed_of_mem m k v h]
    exact h
  · rw [alistSeed_of_not_mem m k v h, List.map_append]
    exact List.mem_append_right _ (by simp)

/-- Seeding keeps every present key. -/
theorem mem_keys_alistSeed_mono (m : List (String × String × List IntoBranch))
    (k : String) (v : String × List IntoBranch) (x : String)
    (h : x ∈ m.map (fun e => e.1)) :
    x ∈ (alistSeed m k v).map (fun e => e.1) := by
  by_cases hk : k ∈ m.map (fun e => e.1)
  · rw [alistSeed_of_mem m k v hk]
    exact h
  · rw [alistSeed_of_not_mem m k v hk, List.map_append]
    exact List.mem_append_left _ h

/-- Seeding keeps the key list duplicate-free. -/
theorem nodup_keys_alistSeed (m : List (String × String × List IntoBranch))
    (k : String) (v : String × List IntoBranch)
    (h : (m.map (fun e => e.1)).Nodup) :
    ((alistSeed m k v).map (fun e => e.1)).Nodup := by
  by_cases hk : k ∈ m.map (fun e => e.1)
  · rw [alistSeed_of_mem m k v hk]
    exact h
  · rw [alistSeed_of_not_mem m k v hk, List.map_append]
    rw [List.nodup_append]
    refine ⟨h, by simp, ?_⟩
    intro x hx hx2
    simp only [List.map_cons, List.map_nil, List.mem_singleton] at hx2
    exact hk (hx2 ▸ hx)

/-- An entry after seeding is an old entry or the seeded one. -/
theorem mem_alistSeed (m : List (String × String × List IntoBranch))
    (k : String) (v : String × List IntoBranch)
    (e : String × String × List IntoBranch) (h : e ∈ alistSeed m k v) :
    e ∈ m ∨ e = (k, v) := by
  by_cases hk : k ∈ m.map (fun e => e.1)
  · rw [alistSeed_of_mem m k v hk] at h
    exact Or.inl h
  · rw [alistSeed_of_not_mem m k v hk] at h
    rcases List.mem_append.mp h with h | h
    · exact Or.inl h
    · exact Or.inr (List.mem_singleton.mp h)

/-- A head entry with a different key does not affect a lookup. -/
theorem fbGet_cons_skip (a : String × List String)
    (m : List (String × List String)) (kq : String) (h : a.1 ≠ kq) :
    fbGet (a :: m) kq = fbGet m kq := by
  rw [fbGet, show List.find? (fun e => e.1 == kq) (a :: m) =
    List.find? (fun e => e.1 == kq) m from
    List.find?_cons_of_neg _ (by simpa using h)]
  rfl

/-- A head entry with the looked-up key is returned. -/
theorem fbGet_cons_hit (a : String × List String)
    (m : List (String × List String)) (kq : String) (h : a.1 = kq) :
    fbGet (a :: m) kq = some a.2 := by
  rw [fbGet, show List.find? (fun e => e.1 == kq) (a :: m) = some a from
    List.find?_cons_of_pos _ (by simpa using h)]
  rfl

/-- Erasing a pending-source entry: the erased key reads `none`, others are
unchanged. -/
theorem fbGet_fbErase (m : List (String × List String)) (k kq : String) :
    fbGet (fbErase m k) kq = if kq = k then none else fbGet m kq := by
  induction m with
  | nil =>
    show (none : Option (List String)) = if kq = k then none else none
    split <;> rfl
  | cons a m ih =>
    by_cases hak : a.1 = k
    · have h1 : fbErase (a :: m) k = fbErase m k := by
        rw [fbErase, fbErase, List.filter_cons,
          show (!(a.1 == k)) = false by simp [hak]]
        rfl
      rw [h1, ih]
      by_cases hq : kq = k
      · rw [if_pos hq, if_pos hq]
      · rw [if_neg hq, if_neg hq,
          fbGet_cons_skip a m kq (by rw [hak]; exact fun he => hq he.symm)]
    · have h1 : fbErase (a :: m) k = a :: fbErase m k := by
        rw [fbErase, fbErase, List.filter_cons,
          show (!(a.1 == k)) = true by simp [hak]]
        simp
      rw [h1]
      by_cases haq : a.1 = kq
      · have hqk : kq ≠ k := fun he => hak (he ▸ haq)
        rw [if_neg hqk, fbGet_cons_hit a _ kq haq, fbGet_cons_hit a m kq haq]
      · rw [fbGet_cons_skip a _ kq haq, fbGet_cons_skip a m kq haq, ih]

/-- Queueing a source: the queued key gains the pushed value at the end,
other keys are unchanged. -/
theorem fbGet_fbPush (m : List (String × List String)) (k : String)
    (v : String) (kq : String) :
    fbGet (fbPush m k v) kq =
      if kq = k then some ((fbGet m k).getD [] ++ [v]) else fbGet m kq := by
  by_cases hp : (m.find? (fun e => e.1 == k)).isSome = true
  · rw [fbPush, if_pos hp, fbGet,
      find?_key_map_update (fun e => if e.1 == k then (e.1, e.2 ++ [v]) else e)
        (fun e => by
          show (if e.1 == k then (e.1, e.2 ++ [v]) else e).1 = e.1
          split <;> rfl) m kq]
    rcases hfind : m.find? (fun e => e.1 == kq) with _ | e
    · by_cases hqk : kq = k
      · rw [hqk] at hfind
        rw [hfind] at hp
        cases hp
      · rw [if_neg hqk, fbGet, hfind]
        rfl
    · have hp2 := List.find?_some hfind
      have he1 : e.1 = kq := eq_of_beq hp2
      by_cases hqk : kq = k
      · subst hqk
        rw [if_pos rfl, fbGet, hfind]
        show some (if e.1 == kq then (e.1, e.2 ++ [v]) else e).2 = _
        rw [show (if e.1 == kq then (e.1, e.2 ++ [v]) else e) = (e.1, e.2 ++ [v])
          from if_pos hp2]
        rfl
      · rw [if_neg hqk, fbGet, hfind]
        show some (if e.1 == k then (e.1, e.2 ++ [v]) else e).2 = some e.2
        rw [show (if e.1 == k then (e.1, e.2 ++ [v]) else e) = e from
          if_neg (by
            intro hbeq
            exact hqk (he1 ▸ eq_of_beq hbeq))]
  · have hnone : m.find? (fun e => e.1 == k) = none := by
      rcases hfind : m.find? (fun e => e.1 == k) with _ | e
      · exact hfind
      · rw [hfind] at hp
        exact absurd rfl hp
    rw [fbPush, if_neg hp]
    by_cases hqk : kq = k
    · subst hqk
      rw [if_pos rfl, fbGet,
        find?_append_of_none _ m [(kq, [v])] hnone,
        show List.find? (fun e => e.1 == kq) [(kq, [v])] = some (kq, [v]) from
          List.find?_cons_of_pos _ (beq_self_eq_true kq),
        fbGet, hnone]
      rfl
    · rw [if_neg hqk, fbGet, fbGet]
      rcases hfind : m.find? (fun e => e.1 == kq) with _ | e
      · rw [find?_append_of_none _ m [(k, [v])] hfind,
          show List.find? (fun e => e.1 == kq) [(k, [v])] = none from
            List.find?_cons_of_neg _ (by
              intro hbeq
              exact hqk (eq_of_beq hbeq).symm),
          hfind]
      · rw [find?_append_of_some _ m [(k, [v])] e hfind, hfind]

/-- Every queued source being keyed makes the update-merge fold succeed. -/
theorem foldSources_ok (mkMerge : String → String → String → String)
    (renamer : List (String × Bool × String))
    (m : List (String × String × List IntoBranch)) (target : String) :
    ∀ (sources : List String) (tc : String),
      (∀ s ∈ sources, s ∈ m.map (fun e => e.1)) →
      ∃ out, foldSources mkMerge renamer m target sources tc = .ok out := by
  intro sources
  induction sources with
  | nil => exact fun tc _ => ⟨tc, rfl⟩
  | cons s rest ih =>
    intro tc hmem
    rcases alistGetCommit_isSome m s (hmem s (List.mem_cons_self _ _))
      with ⟨v, hv⟩
    show ∃ out, (match alistGetCommit m s with
      | none => Except.error (MergeErrorModel.internalIntoBranchSorting s target)
      | some sc =>
        foldSources mkMerge renamer m target rest
          (mkMerge tc sc.1 (updateMergeMessage renamer s target))) = .ok out
    rw [hv]
    exact ih (mkMerge tc v.1 (updateMergeMessage renamer s target))
      (fun x hx => hmem x (List.mem_cons_of_mem _ hx))

/-- Seeding into branches does not touch the sorter elements. -/
theorem seedIntos_remaining (t : String) :
    ∀ (intos : List IntoBranch) (s : UpdateMergeState),
      (seedIntos t intos s).remaining = s.remaining := by
  intro intos
  induction intos with
  | nil => exact fun s => rfl
  | cons ib rest ih =>
    intro s
    show (seedIntos t rest _).remaining = s.remaining
    rw [ih]

/-- Seeding into branches keeps every present key. -/
theorem seedIntos_keys_mono (t : String) :
    ∀ (intos : List IntoBranch) (s : UpdateMergeState) (x : String),
      x ∈ pushKeys s → x ∈ pushKeys (seedIntos t intos s) := by
  intro intos
  induction intos with
  | nil => exact fun s x h => h
  | cons ib rest ih =>
    intro s x h
    show x ∈ pushKeys (seedIntos t rest _)
    exact ih _ x (mem_keys_alistSeed_mono _ _ _ x h)

/-- Seeding into branches makes every seeded name present. -/
theorem seedIntos_seeds (t : String) :
    ∀ (intos : List IntoBranch) (s : UpdateMergeState) (ib : IntoBranch),
      ib ∈ intos → ib.name ∈ pushKeys (seedIntos t intos s) := by
  intro intos
  induction intos with
  | nil => intro s ib h; cases h
  | cons a rest ih =>
    intro s ib h
    rcases List.mem_cons.mp h with h | h
    · subst h
      show ib.name ∈ pushKeys (seedIntos t rest _)
      exact seedIntos_keys_mono t rest _ ib.name (mem_keys_alistSeed_self _ _ _)
    · exact ih _ ib h

/-- Seeding the into branches of a freshly popped branch preserves the
push-map parts of the run invariant. -/
theorem seedIntos_pres (roots : MergeRoots) (hnd : NoRepeatedNodes roots)
    (b : String) :
    ∀ (intos : List IntoBranch) (s : UpdateMergeState),
      (∀ ib ∈ intos, (b, ib.name) ∈ rootsEdges roots) →
      (∀ ib ∈ intos, ib.name ∈ s.remaining) →
      (∀ ib ∈ intos, (ib.name, ib.chain_branches) ∈ nodePairs roots) →
      b ∈ pushKeys s →
      (pushKeys s).Nodup →
      (∀ e ∈ s.push_refs, (e.1, e.2.2) ∈ nodePairs roots) →
      (∀ p c, (p, c) ∈ rootsEdges roots → c ∈ pushKeys s →
        [p, c].Sublist (pushKeys s)) →
      (∀ c v, fbGet s.from_branches c = some v →
        c ∈ s.remaining ∧ ∀ x ∈ v, x ∈ pushKeys s) →
      (pushKeys (seedIntos b intos s)).Nodup ∧
      (∀ e ∈ (seedIntos b intos s).push_refs, (e.1, e.2.2) ∈ nodePairs roots) ∧
      (∀ p c, (p, c) ∈ rootsEdges roots → c ∈ pushKeys (seedIntos b intos s) →
        [p, c].Sublist (pushKeys (seedIntos b intos s))) ∧
      (∀ c v, fbGet (seedIntos b intos s).from_branches c = some v →
        c ∈ (seedIntos b intos s).remaining ∧
          ∀ x ∈ v, x ∈ pushKeys (seedIntos b intos s)) := by
  intro intos
  induction intos with
  | nil =>
    intro s _ _ _ _ hknd h2c h2a h6
    exact ⟨hknd, h2c, h2a, h6⟩
  | cons ib rest ih =>
    intro s hedge hrem hnp hbk hknd h2c h2a h6
    set s2 : UpdateMergeState :=
      { s with
        from_branches := fbPush s.from_branches ib.name b,
        push_refs := alistSeed s.push_refs ib.name
          (ib.name, ib.chain_branches) } with hs2
    have hstep : seedIntos b (ib :: rest) s = seedIntos b rest s2 := rfl
    have hkeyscases : pushKeys s2 = pushKeys s ∨
        (pushKeys s2 = pushKeys s ++ [ib.name] ∧ ib.name ∉ pushKeys s) := by
      by_cases hk : ib.name ∈ pushKeys s
      · left
        show (alistSeed s.push_refs ib.name _).map (fun e => e.1) = _
        rw [alistSeed_of_mem _ _ _ hk]
        rfl
      · right
        refine ⟨?_, hk⟩
        show (alistSeed s.push_refs ib.name _).map (fun e => e.1) = _
        rw [alistSeed_of_not_mem _ _ _ hk, List.map_append]
        rfl
    have hrem2 : s2.remaining = s.remaining := rfl
    have hbk2 : b ∈ pushKeys s2 := mem_keys_alistSeed_mono _ _ _ b hbk
    have hmono2 : ∀ x, x ∈ pushKeys s → x ∈ pushKeys s2 :=
      fun x hx => mem_keys_alistSeed_mono _ _ _ x hx
    have hknd2 : (pushKeys s2).Nodup := nodup_keys_alistSeed _ _ _ hknd
    have h2c2 : ∀ e ∈ s2.push_refs, (e.1, e.2.2) ∈ nodePairs roots := by
      intro e he
      rcases mem_alistSeed _ _ _ e he with h | h
      · exact h2c e h
      · subst h
        exact hnp ib (List.mem_cons_self _ _)
    have h2a2 : ∀ p c, (p, c) ∈ rootsEdges roots → c ∈ pushKeys s2 →
        [p, c].Sublist (pushKeys s2) := by
      intro p c hpc hc
      rcases hkeyscases with hk | ⟨hk, hfresh⟩
      · rw [hk] at hc ⊢
        exact h2a p c hpc hc
      · rw [hk] at hc ⊢
        rcases List.mem_append.mp hc with hc | hc
        · exact (h2a p c hpc hc).trans (List.sublist_append_left _ _)
        · have hcn : c = ib.name := List.mem_singleton.mp hc
          subst hcn
          have hpb : p = b :=
            unique_parent roots hnd p b ib.name hpc
              (hedge ib (List.mem_cons_self _ _))
          subst hpb
          exact List.Sublist.append (List.singleton_sublist.mpr hbk)
            (List.Sublist.refl _)
    have h62 : ∀ c v, fbGet s2.from_branches c = some v →
        c ∈ s2.remaining ∧ ∀ x ∈ v, x ∈ pushKeys s2 := by
      intro c v hv
      have : fbGet (fbPush s.from_branches ib.name b) c = some v := hv
      rw [fbGet_fbPush] at this
      by_cases hcn : c = ib.name
      · rw [if_pos hcn] at this
        injection this with hveq
        refine ⟨hrem2 ▸ (hcn ▸ hrem ib (List.mem_cons_self _ _)), ?_⟩
        intro x hx
        rw [← hveq] at hx
        rcases List.mem_append.mp hx with hx | hx
        · rcases hget : fbGet s.from_branches ib.name with _ | v0
          · rw [hget] at hx
            cases hx
          · rw [hget] at hx
            exact hmono2 x ((h6 ib.name v0 hget).2 x hx)
        · have : x = b := List.mem_singleton.mp hx
          subst this
          exact hbk2
      · rw [if_neg hcn] at this
        rcases h6 c v this with ⟨hcrem, hvk⟩
        exact ⟨hrem2 ▸ hcrem, fun x hx => hmono2 x (hvk x hx)⟩
    rw [hstep]
    exact ih s2
      (fun x hx => hedge x (List.mem_cons_of_mem _ hx))
      (fun x hx => hrem2 ▸ hrem x (List.mem_cons_of_mem _ hx))
      (fun x hx => hnp x (List.mem_cons_of_mem _ hx))
      hbk2 hknd2 h2c2 h2a2 h62

/-- Re-assembling the run invariant after popping `b` and seeding its into
branches, from the invariant parts of the intermediate state. -/
theorem pop_assemble (roots : MergeRoots) (hnd : NoRepeatedNodes roots)
    (st stM : UpdateMergeState) (b : String) (target2 : List IntoBranch)
    (hsub : ∀ x, x ∈ st.remaining → x ∈ sorterNodes (rootsEdges roots))
    (hroots : ∀ x, x ∈ roots.map (fun r => r.1) → x ∈ pushKeys st)
    (h7 : ∀ p c, (p, c) ∈ rootsEdges roots → c ∉ st.remaining →
      p ∉ st.remaining)
    (h5 : ∀ p c, (p, c) ∈ rootsEdges roots → p ∉ st.remaining →
      c ∈ pushKeys st)
    (h3 : ∀ x, x ∈ sorterNodes (rootsEdges roots) → x ∉ st.remaining →
      x ∈ pushKeys st)
    (hbmem : b ∈ st.remaining)
    (hpred : ∀ e ∈ rootsEdges roots, e.2 = b → e.1 ∉ st.remaining)
    (hbkeys : b ∈ pushKeys st)
    (hbNP : (b, target2) ∈ nodePairs roots)
    (hremM : stM.remaining = st.remaining.erase b)
    (hkeysM : pushKeys stM = pushKeys st)
    (hkndM : (pushKeys stM).Nodup)
    (h2cM : ∀ e ∈ stM.push_refs, (e.1, e.2.2) ∈ nodePairs roots)
    (h2aM : ∀ p c, (p, c) ∈ rootsEdges roots → c ∈ pushKeys stM →
      [p, c].Sublist (pushKeys stM))
    (h6M : ∀ c v, fbGet stM.from_branches c = some v →
      c ∈ stM.remaining ∧ ∀ x ∈ v, x ∈ pushKeys stM) :
    (seedIntos b target2 stM).remaining = st.remaining.erase b ∧
      MergeInv roots (seedIntos b target2 stM) := by
  have hchild_edge : ∀ ib ∈ target2, (b, ib.name) ∈ rootsEdges roots :=
    fun ib hib => (mem_rootsEdges roots b ib.name).mpr
      ⟨target2, hbNP, List.mem_map.mpr ⟨ib, hib, rfl⟩⟩
  have hchild_np : ∀ ib ∈ target2,
      (ib.name, ib.chain_branches) ∈ nodePairs roots :=
    fun ib hib => (sub_nodePairs roots b target2 hbNP).subset
      (List.mem_cons_of_mem _ (mem_pairsOfList_of_mem ib target2 hib))
  have hchild_rem : ∀ ib ∈ target2, ib.name ∈ st.remaining.erase b := by
    intro ib hib
    have hedge := hchild_edge ib hib
    have hne : ib.name ≠ b := by
      intro he
      exact no_self_edge roots hnd b (he ▸ hedge)
    have hmem : ib.name ∈ st.remaining := by
      by_contra hnm
      exact absurd hbmem (h7 b ib.name hedge hnm)
    exact (List.mem_erase_of_ne hne).mpr hmem
  obtain ⟨hknd', h2c', h2a', h6'⟩ :=
    seedIntos_pres roots hnd b target2 stM hchild_edge
      (fun ib hib => hremM ▸ hchild_rem ib hib) hchild_np
      (hkeysM ▸ hbkeys) hkndM h2cM h2aM h6M
  have hrem' : (seedIntos b target2 stM).remaining = st.remaining.erase b := by
    rw [seedIntos_remaining, hremM]
  have hmono : ∀ x, x ∈ pushKeys st → x ∈ pushKeys (seedIntos b target2 stM) :=
    fun x hx => seedIntos_keys_mono b target2 stM x (hkeysM ▸ hx)
  refine ⟨hrem', ?_, ?_, hknd', h2c', h2a', ?_, ?_, ?_, h6'⟩
  · intro x hx
    rw [hrem'] at hx
    exact hsub x ((List.erase_sublist b st.remaining).subset hx)
  · intro x hx
    exact hmono x (hroots x hx)
  · intro p c hpc hc
    rw [hrem'] at hc ⊢
    by_cases hcrem : c ∈ st.remaining
    · have hcb : c = b := by
        by_contra hne
        exact hc ((List.mem_erase_of_ne hne).mpr hcrem)
      subst hcb
      have hpnot : p ∉ st.remaining := hpred (p, c) hpc rfl
      intro hpm
      exact hpnot ((List.erase_sublist c st.remaining).subset hpm)
    · have hpnot := h7 p c hpc hcrem
      intro hpm
      exact hpnot ((List.erase_sublist b st.remaining).subset hpm)
  · intro p c hpc hp
    rw [hrem'] at hp
    by_cases hprem : p ∈ st.remaining
    · have hpb : p = b := by
        by_contra hne
        exact hp ((List.mem_erase_of_ne hne).mpr hprem)
      subst hpb
      rcases (mem_rootsEdges roots p c).mp hpc with ⟨ch, hch, hcch⟩
      have hcheq : ch = target2 :=
        nodup_keys_unique (nodePairs roots) hnd p ch target2 hch hbNP
      rw [hcheq] at hcch
      rcases List.mem_map.mp hcch with ⟨ib, hib, rfl⟩
      exact seedIntos_seeds p target2 stM ib hib
    · exact hmono c (h5 p c hpc hprem)
  · intro x hxN hx
    rw [hrem'] at hx
    by_cases hxrem : x ∈ st.remaining
    · have hxb : x = b := by
        by_contra hne
        exact hx ((List.mem_erase_of_ne hne).mpr hxrem)
      subst hxb
      exact hmono x hbkeys
    · exact hmono x (h3 x hxN hxrem)

/-- Evaluation of a pop with no queued sources. -/
theorem popStep_eval_nosrc (mkMerge : String → String → String → String)
    (renamer : List (String × Bool × String)) (st : UpdateMergeState)
    (b : String) (target : String × List IntoBranch)
    (h1 : alistGetCommit st.push_refs b = some target)
    (h2 : fbGet st.from_branches b = none) :
    popStep mkMerge renamer st b = .ok (seedIntos b target.2
      { st with remaining := st.remaining.erase b }) := by
  unfold popStep
  split
  · next heq =>
    rw [heq] at h1
    cases h1
  · next target' heq =>
    rw [h1] at heq
    injection heq with heq
    subst heq
    dsimp only
    split
    · rfl
    · next sources heq2 =>
      have heq2' : fbGet st.from_branches b = some sources := heq2
      rw [h2] at heq2'
      cases heq2'

/-- Evaluation of a pop with queued sources whose update merges succeed. -/
theorem popStep_eval_src (mkMerge : String → String → String → String)
    (renamer : List (String × Bool × String)) (st : UpdateMergeState)
    (b : String) (target : String × List IntoBranch) (sources : List String)
    (newCommit : String)
    (h1 : alistGetCommit st.push_refs b = some target)
    (h2 : fbGet st.from_branches b = some sources)
    (h3 : foldSources mkMerge renamer st.push_refs b sources target.1 =
      .ok newCommit) :
    popStep mkMerge renamer st b = .ok (seedIntos b target.2
      { remaining := st.remaining.erase b,
        from_branches := fbErase st.from_branches b,
        push_refs := alistSetCommit st.push_refs b newCommit }) := by
  unfold popStep
  split
  · next heq =>
    rw [heq] at h1
    cases h1
  · next target' heq =>
    rw [h1] at heq
    injection heq with heq
    subst heq
    dsimp only
    split
    · next heq2 =>
      have heq2' : fbGet st.from_branches b = none := heq2
      rw [h2] at heq2'
      cases heq2'
    · next sources' heq2 =>
      have heq2' : fbGet st.from_branches b = some sources' := heq2
      rw [h2] at heq2'
      injection heq2' with heq2'
      subst heq2'
      split
      · next e heq3 =>
        have heq3' : foldSources mkMerge renamer st.push_refs b sources
            target.1 = .error e := heq3
        rw [h3] at heq3'
        cases heq3'
      · next nc heq3 =>
        have heq3' : foldSources mkMerge renamer st.push_refs b sources
            target.1 = .ok nc := heq3
        rw [h3] at heq3'
        injection heq3' with heq3'
        subst heq3'
        rfl

/-- A successful pop always erases the popped element. -/
theorem popStep_ok_remaining (mkMerge : String → String → String → String)
    (renamer : List (String × Bool × String)) (st : UpdateMergeState)
    (b : String) (st2 : UpdateMergeState)
    (h : popStep mkMerge renamer st b = .ok st2) :
    st2.remaining = st.remaining.erase b := by
  unfold popStep at h
  split at h
  · cases h
  · dsimp only at h
    split at h
    · injection h with h
      rw [← h, seedIntos_remaining]
    · split at h
      · cases h
      · injection h with h
        rw [← h, seedIntos_remaining]

/-- A free pop under the run invariant succeeds and preserves it. -/
theorem popStep_pres (roots : MergeRoots) (hnd : NoRepeatedNodes roots)
    (mkMerge : String → String → String → String)
    (renamer : List (String × Bool × String)) (st : UpdateMergeState)
    (b : String) (hInv : MergeInv roots st)
    (hfree : isFree (rootsEdges roots) st.remaining b = true) :
    ∃ st2, popStep mkMerge renamer st b = .ok st2 ∧
      st2.remaining = st.remaining.erase b ∧ MergeInv roots st2 := by
  obtain ⟨hsub, hroots, hknd, h2c, h2a, h7, h5, h3, h6⟩ := hInv
  obtain ⟨hbmem, hpredE⟩ :=
    (isFree_iff (rootsEdges roots) st.remaining b).mp hfree
  have hbkeys : b ∈ pushKeys st := by
    have hbN := hsub b hbmem
    rcases mem_allBranches_cases roots b (sorter_subset_allBranches roots b hbN)
      with hroot | ⟨p, hpb⟩
    · exact hroots b hroot
    · exact h5 p b hpb (hpredE (p, b) hpb rfl)
  rcases alistGetCommit_isSome st.push_refs b hbkeys with ⟨target, htarget⟩
  rcases alistGetCommit_some st.push_refs b target htarget
    with ⟨e0, he0mem, he0key, he0val⟩
  have hbNP : (b, target.2) ∈ nodePairs roots := by
    have h := h2c e0 he0mem
    rw [he0key] at h
    rw [← he0val]
    exact h
  rcases hfb : fbGet st.from_branches b with _ | sources
  · refine ⟨seedIntos b target.2 { st with remaining := st.remaining.erase b },
      popStep_eval_nosrc mkMerge renamer st b target htarget hfb, ?_⟩
    have hasm := pop_assemble roots hnd st
      { st with remaining := st.remaining.erase b } b target.2
      hsub hroots h7 h5 h3 hbmem hpredE hbkeys hbNP rfl rfl hknd h2c h2a ?_
    · exact hasm
    · intro c v hv
      have hcb : c ≠ b := by
        intro he
        rw [he, hfb] at hv
        cases hv
      rcases h6 c v hv with ⟨hcrem, hvk⟩
      exact ⟨(List.mem_erase_of_ne hcb).mpr hcrem, hvk⟩
  · rcases h6 b sources hfb with ⟨_, hsrck⟩
    rcases foldSources_ok mkMerge renamer st.push_refs b sources target.1 hsrck
      with ⟨newCommit, hfold⟩
    refine ⟨seedIntos b target.2
      { remaining := st.remaining.erase b,
        from_branches := fbErase st.from_branches b,
        push_refs := alistSetCommit st.push_refs b newCommit },
      popStep_eval_src mkMerge renamer st b target sources newCommit
        htarget hfb hfold, ?_⟩
    have hkeysM : pushKeys
        (UpdateMergeState.mk (st.remaining.erase b)
          (fbErase st.from_branches b)
          (alistSetCommit st.push_refs b newCommit)) = pushKeys st :=
      keys_alistSetCommit _ _ _
    have hasm := pop_assemble roots hnd st
      { remaining := st.remaining.erase b,
        from_branches := fbErase st.from_branches b,
        push_refs := alistSetCommit st.push_refs b newCommit } b target.2
      hsub hroots h7 h5 h3 hbmem hpredE hbkeys hbNP rfl hkeysM
      (hkeysM ▸ hknd) ?_ ?_ ?_
    · exact hasm
    · intro e he
      rcases mem_alistSetCommit st.push_refs b newCommit e he
        with ⟨e1, he1, hk1, hc1⟩
      rw [hk1, hc1]
      exact h2c e1 he1
    · intro p c hpc hc
      rw [hkeysM] at hc ⊢
      exact h2a p c hpc hc
    · intro c v hv
      have hv2 : fbGet (fbErase st.from_branches b) c = some v := hv
      rw [fbGet_fbErase] at hv2
      by_cases hcb : c = b
      · rw [if_pos hcb] at hv2
        cases hv2
      · rw [if_neg hcb] at hv2
        rcases h6 c v hv2 with ⟨hcrem, hvk⟩
        refine ⟨(List.mem_erase_of_ne hcb).mpr hcrem, fun x hx => ?_⟩
        rw [hkeysM]
        exact hvk x hx

/-- Running a valid schedule under the invariant succeeds, preserves it and
drains every free element. -/
theorem runSchedule_pres (roots : MergeRoots) (hnd : NoRepeatedNodes roots)
    (mkMerge : String → String → String → String)
    (renamer : List (String × Bool × String)) :
    ∀ (schedule : List String) (st : UpdateMergeState),
      MergeInv roots st →
      validFrom (rootsEdges roots) st.remaining schedule = true →
      ∃ st2, runSchedule (rootsEdges roots) mkMerge renamer schedule st =
          .ok st2 ∧
        MergeInv roots st2 ∧
        noFreeLeft (rootsEdges roots) st2.remaining = true := by
  intro schedule
  induction schedule with
  | nil =>
    intro st hInv hvf
    exact ⟨st, rfl, hInv, hvf⟩
  | cons b rest ih =>
    intro st hInv hvf
    unfold validFrom at hvf
    rw [Bool.and_eq_true] at hvf
    obtain ⟨hfree, hvfr⟩ := hvf
    obtain ⟨st2, hpop, hrem2, hInv2⟩ :=
      popStep_pres roots hnd mkMerge renamer st b hInv hfree
    obtain ⟨st3, hrun3, hInv3, hnf3⟩ :=
      ih st2 hInv2 (by rw [hrem2]; exact hvfr)
    refine ⟨st3, ?_, hInv3, hnf3⟩
    unfold runSchedule
    rw [if_pos hfree, hpop]
    exact hrun3

/-- The merged targets are keyed first in the branch list. -/
theorem map_fst_sublist_allBranches (roots : MergeRoots) :
    (roots.map (fun r => r.1)).Sublist (allBranches roots) := by
  induction roots with
  | nil => exact List.Sublist.refl _
  | cons r rest ih =>
    show (r.1 :: rest.map (fun r => r.1)).Sublist (allBranches (r :: rest))
    have : allBranches (r :: rest) =
        r.1 :: ((pairsOfList r.2.2).map (fun e => e.1) ++ allBranches rest) := by
      rw [allBranches, nodePairs, List.flatMap_cons, List.map_append,
        List.map_cons]
      rw [allBranches, nodePairs]
      rfl
    rw [this]
    exact (ih.trans (List.sublist_append_right _ _)).cons₂ r.1

/-- The invariant holds at the start of the loop. -/
theorem initial_inv (roots : MergeRoots) (hnd : NoRepeatedNodes roots) :
    MergeInv roots
      (UpdateMergeState.mk (sorterNodes (rootsEdges roots)) [] roots) := by
  refine ⟨fun b h => h, fun b h => h, ?_, ?_, ?_, ?_, ?_, ?_, ?_⟩
  · exact (map_fst_sublist_allBranches roots).nodup hnd
  · intro e he
    exact List.mem_flatMap.mpr ⟨e, he, List.mem_cons_self _ _⟩
  · intro p c hpc hc
    exact (child_not_root roots hnd p c hpc hc).elim
  · intro p c hpc hcnot
    exact (hcnot (edge_snd_mem_sorter _ p c hpc)).elim
  · intro p c hpc hpnot
    exact (hpnot (edge_fst_mem_sorter _ p c hpc)).elim
  · intro x hxN hxnot
    exact (hxnot hxN).elim
  · intro c v hv
    cases hv

/-- After the loop has drained, no element remains in the sorter. -/
theorem final_remaining_nil (roots : MergeRoots) (hnd : NoRepeatedNodes roots)
    (st : UpdateMergeState)
    (hnofree : noFreeLeft (rootsEdges roots) st.remaining = true) :
    st.remaining = [] := by
  by_contra hne
  refine no_all_blocked (allBranches roots) hnd st.remaining hne ?_
  intro b hb
  obtain ⟨p, hp, hedge⟩ := noFreeLeft_blocked _ _ hnofree b hb
  exact ⟨p, hp, edge_sublist_allBranches roots p b hedge⟩

/-- With the sorter drained, no pending sources remain. -/
theorem final_fb_nil (st : UpdateMergeState)
    (h6 : ∀ c v, fbGet st.from_branches c = some v →
      c ∈ st.remaining ∧ ∀ x ∈ v, x ∈ pushKeys st)
    (hrem : st.remaining = []) : st.from_branches = [] := by
  rcases hfb : st.from_branches with _ | ⟨a, m⟩
  · rfl
  · exfalso
    have hget : fbGet st.from_branches a.1 = some a.2 := by
      rw [hfb]
      exact fbGet_cons_hit a m a.1 rfl
    rcases h6 a.1 a.2 hget with ⟨hmem, _⟩
    rw [hrem] at hmem
    cases hmem

/-- Every element of a chain has a predecessor among the start and the
earlier elements. -/
theorem chain_preds {α : Type} {R : α → α → Prop} :
    ∀ (l : List α) (x y : α), List.Chain R x (l ++ [y]) →
      ∀ c ∈ l ++ [y], ∃ p ∈ x :: l, R p c := by
  intro l
  induction l with
  | nil =>
    intro x y hchain c hc
    rw [List.nil_append] at hc
    rcases List.mem_singleton.mp hc with rfl
    cases hchain with
    | cons h _ => exact ⟨x, List.mem_cons_self _ _, h⟩
  | cons a l ih =>
    intro x y hchain c hc
    cases hchain with
    | cons hxa hrest =>
      rcases List.mem_cons.mp hc with rfl | hc
      · exact ⟨x, List.mem_cons_self _ _, hxa⟩
      · obtain ⟨p, hp, hR⟩ := ih a y hrest c hc
        exact ⟨p, List.mem_cons_of_mem x hp, hR⟩

/-- Every member of a dependency cycle has a predecessor in the cycle. -/
theorem cycle_members_blocked (edges : List (String × String)) (x : String)
    (l : List String) (hchain : EdgePath edges x (l ++ [x])) :
    ∀ c ∈ x :: l, ∃ p ∈ x :: l, (p, c) ∈ edges := by
  intro c hc
  rcases List.mem_cons.mp hc with rfl | hc
  · exact chain_preds l c c hchain c
      (List.mem_append_right _ (List.mem_singleton.mpr rfl))
  · exact chain_preds l x x hchain c (List.mem_append_left _ hc)

/-- A set of mutually blocked branches survives the whole loop. -/
theorem runSchedule_keeps_blocked (edges : List (String × String))
    (mkMerge : String → String → String → String)
    (renamer : List (String × Bool × String)) (C : List String)
    (hC : ∀ c ∈ C, ∃ p ∈ C, (p, c) ∈ edges) :
    ∀ (schedule : List String) (st st2 : UpdateMergeState),
      (∀ c ∈ C, c ∈ st.remaining) →
      runSchedule edges mkMerge renamer schedule st = .ok st2 →
      ∀ c ∈ C, c ∈ st2.remaining := by
  intro schedule
  induction schedule with
  | nil =>
    intro st st2 hCrem hrun
    injection hrun with h
    exact fun c hc => h ▸ hCrem c hc
  | cons b rest ih =>
    intro st st2 hCrem hrun
    unfold runSchedule at hrun
    by_cases hfree : isFree edges st.remaining b = true
    · rw [if_pos hfree] at hrun
      have hbC : b ∉ C := by
        intro hb
        obtain ⟨p, hpC, hedge⟩ := hC b hb
        obtain ⟨_, hnopred⟩ := (isFree_iff edges st.remaining b).mp hfree
        exact hnopred (p, b) hedge rfl (hCrem p hpC)
      rcases hpop : popStep mkMerge renamer st b with e | stm
      · rw [hpop] at hrun
        cases hrun
      · rw [hpop] at hrun
        have hremm := popStep_ok_remaining mkMerge renamer st b stm hpop
        refine ih stm st2 ?_ hrun
        intro c hc
        rw [hremm]
        have hcb : c ≠ b := by
          intro he
          rw [he] at hc
          exact hbC hc
        exact (List.mem_erase_of_ne hcb).mpr (hCrem c hc)
    · rw [if_neg hfree] at hrun
      exact ih st st2 hCrem hrun

/-- Iterating keyed branches in a given order yields one ref per branch,
in that order. -/
theorem filterMap_lookup_snd (m : List (String × String × List IntoBranch)) :
    ∀ iterOrder : List String,
      (∀ b ∈ iterOrder, b ∈ m.map (fun e => e.1)) →
      (iterOrder.filterMap (fun b =>
        (alistGetCommit m b).map (fun v => (v.1, b)))).map (fun e => e.2) =
        iterOrder := by
  intro iterOrder
  induction iterOrder with
  | nil => intro h; rfl
  | cons b rest ih =>
    intro h
    rcases alistGetCommit_isSome m b (h b (List.mem_cons_self _ _)) with ⟨v, hv⟩
    have hstep : (b :: rest).filterMap (fun b =>
        (alistGetCommit m b).map (fun v => (v.1, b))) =
      (v.1, b) :: rest.filterMap (fun b =>
        (alistGetCommit m b).map (fun v => (v.1, b))) :=
      List.filterMap_cons_some
        (show (alistGetCommit m b).map (fun v => (v.1, b)) = some (v.1, b) by
          rw [hv]; rfl)
    rw [hstep, List.map_cons,
      ih (fun x hx => h x (List.mem_cons_of_mem _ hx))]

/-- The acyclic half: without repeated nodes, every sorter run succeeds and
pushes exactly one ref per configured branch, in whatever order the final
hash map yields its keys. -/
theorem perform_acyclic (roots : MergeRoots) (hnd : NoRepeatedNodes roots)
    (mkMerge : String → String → String → String)
    (renamer : List (String × Bool × String)) (schedule : List String)
    (iterOrder : List String)
    (hsched : ValidSchedule (rootsEdges roots) schedule = true)
    (hiter : iterOrder.Perm (allBranches roots)) :
    ∃ l, perform_update_merges mkMerge renamer roots (rootsEdges roots)
        schedule iterOrder = .ok l ∧
      l.map (fun e => e.2) = iterOrder := by
  obtain ⟨st2, hrun, hInv2, hnofree⟩ :=
    runSchedule_pres roots hnd mkMerge renamer schedule
      (UpdateMergeState.mk (sorterNodes (rootsEdges roots)) [] roots)
      (initial_inv roots hnd) hsched
  have hrem := final_remaining_nil roots hnd st2 hnofree
  obtain ⟨hsub, hroots, hknd, h2c, h2a, h7, h5, h3, h6⟩ := hInv2
  have hfb := final_fb_nil st2 h6 hrem
  have hABkeys : ∀ b, b ∈ allBranches roots → b ∈ pushKeys st2 := by
    intro b hb
    rcases mem_allBranches_cases roots b hb with hroot | ⟨p, hpb⟩
    · exact hroots b hroot
    · exact h3 b (edge_snd_mem_sorter _ p b hpb)
        (by rw [hrem]; exact List.not_mem_nil b)
  refine ⟨iterOrder.filterMap (fun b =>
      (alistGetCommit st2.push_refs b).map (fun v => (v.1, b))), ?_, ?_⟩
  · unfold perform_update_merges
    rw [hrun]
    show (if st2.remaining.isEmpty then
        if st2.from_branches.isEmpty then
          Except.ok (iterOrder.filterMap (fun b =>
            (alistGetCommit st2.push_refs b).map (fun v => (v.1, b))))
        else Except.error (MergeErrorModel.internalLeftoverBranches
          (st2.from_branches.map (fun e => e.1)))
      else Except.error MergeErrorModel.circularIntoBranches) = _
    rw [hrem, hfb]
    rfl
  · exact filterMap_lookup_snd st2.push_refs iterOrder
      (fun b hb => hABkeys b (hiter.subset hb))

/-- The cyclic half: any run over a cyclic graph reports an error. -/
theorem perform_cyclic (roots : MergeRoots)
    (mkMerge : String → String → String → String)
    (renamer : List (String × Bool × String)) (schedule : List String)
    (iterOrder : List String)
    (hcyc : HasEdgeCycle (rootsEdges roots)) :
    ∃ err, perform_update_merges mkMerge renamer roots (rootsEdges roots)
        schedule iterOrder = .error err := by
  obtain ⟨x, l, hchain⟩ := hcyc
  have hC := cycle_members_blocked (rootsEdges roots) x l hchain
  have hCN : ∀ c ∈ x :: l, c ∈ sorterNodes (rootsEdges roots) := by
    intro c hc
    obtain ⟨p, _, hedge⟩ := hC c hc
    exact edge_snd_mem_sorter _ p c hedge
  unfold perform_update_merges
  rcases hrun : runSchedule (rootsEdges roots) mkMerge renamer schedule
      (UpdateMergeState.mk (sorterNodes (rootsEdges roots)) [] roots)
    with e | st2
  · exact ⟨e, rfl⟩
  · have hx : x ∈ st2.remaining :=
      runSchedule_keeps_blocked (rootsEdges roots) mkMerge renamer (x :: l) hC
        schedule _ st2 hCN hrun x (List.mem_cons_self _ _)
    have hne : st2.remaining.isEmpty = false := by
      rcases hr : st2.remaining with _ | ⟨_, _⟩
      · rw [hr] at hx
        cases hx
      · rfl
    refine ⟨MergeErrorModel.circularIntoBranches, ?_⟩
    show (if st2.remaining.isEmpty then
        if st2.from_branches.isEmpty then
          Except.ok (iterOrder.filterMap (fun b =>
            (alistGetCommit st2.push_refs b).map (fun v => (v.1, b))))
        else Except.error (MergeErrorModel.internalLeftoverBranches
          (st2.from_branches.map (fun e => e.1)))
      else Except.error MergeErrorModel.circularIntoBranches) = _
    rw [hne]
    rfl

/-- C1 (amended): over the edges its callers register, a configuration
without repeated branch names makes `perform_update_merges` succeed for
every pop order the topological sorter can produce, and the
`(commit, branch)` list handed to the single atomic push carries exactly
one ref per configured branch — but in the arbitrary order of the final
`HashMap` iteration, so no parent-before-child order is guaranteed; over a
graph with a dependency cycle the function reports an error — not
necessarily `CircularIntoBranches` — and nothing reaches the push. -/
theorem perform_update_merges_spec
    (mkMerge : String → String → String → String)
    (renamer : List (String × Bool × String)) (roots : MergeRoots)
    (schedule iterOrder : List String) :
    (NoRepeatedNodes roots →
      ValidSchedule (rootsEdges roots) schedule = true →
      iterOrder.Perm (allBranches roots) →
      ∃ l, perform_update_merges mkMerge renamer roots (rootsEdges roots)
          schedule iterOrder = .ok l ∧
        l.map (fun e => e.2) = iterOrder) ∧
    (HasEdgeCycle (rootsEdges roots) →
      ∃ err, perform_update_merges mkMerge renamer roots (rootsEdges roots)
          schedule iterOrder = .error err ∧
        refsHandedToPush (perform_update_merges mkMerge renamer roots
          (rootsEdges roots) schedule iterOrder) = []) := by
  constructor
  · intro hnd hsched hiter
    exact perform_acyclic roots hnd mkMerge renamer schedule iterOrder
      hsched hiter
  · intro hcyc
    obtain ⟨err, herr⟩ :=
      perform_cyclic roots mkMerge renamer schedule iterOrder hcyc
    exact ⟨err, herr, by rw [herr]; rfl⟩

/-- C1 counterexample, both halves of the original claim.  Cycle half:
`cycleRoots` has the dependency cycle `R -> S -> R` and `A, Q, P, X` is a
pop order the sorter can produce, yet the run fails — under every map
iteration order — with the internal reference-tracking error for `X`
rather than `CircularIntoBranches`.  Ordering half: for the duplicate-free
`witnessRoots` with the edge `main -> release`, the iteration order
`release, main` is one the final hash map can yield, and the resulting
push list names the child `release` before its parent `main`. -/
theorem perform_update_merges_counterexample :
    (HasEdgeCycle (rootsEdges cycleRoots) ∧
      ValidSchedule (rootsEdges cycleRoots) ["A", "Q", "P", "X"] = true ∧
      (∀ iterOrder, perform_update_merges witnessMkMerge [] cycleRoots
        (rootsEdges cycleRoots) ["A", "Q", "P", "X"] iterOrder =
        .error (.internalReferenceTracking "X")) ∧
      MergeErrorModel.internalReferenceTracking "X" ≠
        MergeErrorModel.circularIntoBranches) ∧
    (("main", "release") ∈ rootsEdges witnessRoots ∧
      NoRepeatedNodes witnessRoots ∧
      ValidSchedule (rootsEdges witnessRoots) ["main", "release"] = true ∧
      List.Perm ["release", "main"] (allBranches witnessRoots) ∧
      perform_update_merges witnessMkMerge [] witnessRoots
        (rootsEdges witnessRoots) ["main", "release"] ["release", "main"] =
        .ok [("release+C0", "release"), ("C0", "main")] ∧
      ¬ ListPrecedes ([("release+C0", "release"), ("C0", "main")].map
        (fun e => e.2)) "main" "release") := by
  refine ⟨⟨⟨"R", ["S"], List.Chain.cons (by decide)
      (List.Chain.cons (by decide) List.Chain.nil)⟩,
    by decide, fun iterOrder => rfl, ?_⟩,
    by decide, by decide, by decide, by decide, by rfl,
    by show ¬ List.Sublist ["main", "release"] ["release", "main"]; decide⟩
  intro h
  cases h

/-- Witness for C1: the duplicate-free configuration merges `main` into
`release`, pushing one ref per branch in the supplied iteration order; the
cyclic configuration errors with nothing to push. -/
theorem perform_update_merges_spec_witness :
    (∃ l, perform_update_merges witnessMkMerge [] witnessRoots
        (rootsEdges witnessRoots) ["main", "release"] ["main", "release"] =
        .ok l ∧
      l.map (fun e => e.2) = ["main", "release"]) ∧
    (∃ err, perform_update_merges witnessMkMerge [] cycleRoots
        (rootsEdges cycleRoots) ["A", "Q", "P", "X"] [] = .error err ∧
      refsHandedToPush (perform_update_merges witnessMkMerge [] cycleRoots
        (rootsEdges cycleRoots) ["A", "Q", "P", "X"] []) = []) :=
  ⟨(perform_update_merges_spec witnessMkMerge [] witnessRoots
      ["main", "release"] ["main", "release"]).1 (by decide) (by decide)
      (by decide),
    (perform_update_merges_spec witnessMkMerge [] cycleRoots
      ["A", "Q", "P", "X"] []).2 ⟨"R", ["S"], List.Chain.cons (by decide)
        (List.Chain.cons (by decide) List.Chain.nil)⟩⟩
